import Mathlib

/-!
# makefilelist: a verification development

A shallow embedding of `main.go` (package `main` of `makefilelist`): the
extension filter `filterExt`, the text built by `writeList`, the directory walk
`traverseFolder` with its two fixed-size arrays, and the control flow of `main`.

Go strings are rendered as Lean `String`s.  The program only ever compares
bytes with the ASCII bytes `/`, `.` and `,`, and in UTF-8 such a byte never
occurs inside a multi-byte character, so working on characters and working on
bytes agree on every string that is valid UTF-8.

The functions `path.Ext`, `path.Clean` and `strings.Split` belong to the Go
standard library; they are transcribed here from the library's source because
the program calls them.
-/

namespace Makefilelist

/-! ## Go standard library: `path.Ext` -/

/-- The loop of `path.Ext`:
`for i := len(path) - 1; i >= 0 && path[i] != '/'; i-- { if path[i] == '.' { return path[i:] } }`
followed by `return ""`.  The argument `k` is `i + 1`, so that `k = 0` is the
exit `i < 0`. -/
def extLoop (path : List Char) : Nat → List Char
  | 0 => []
  | i + 1 =>
    if path.getD i '/' = '/' then []
    else if path.getD i '/' = '.' then path.drop i
    else extLoop path i

/-- Go `path.Ext`: the suffix beginning at the final dot in the final
slash-separated element of `path`; empty if there is no dot. -/
def Ext (path : String) : String :=
  ⟨extLoop path.data path.data.length⟩

/-! ## Go standard library: `path.Clean` -/

/-- The inner loop of the `..` case of `path.Clean`, entered after `out.w--`:
`for out.w > dotdot && out.index(out.w) != '/' { out.w-- }`.
`buf` is the buffer before the element is removed, the argument is `out.w`,
the result is the final `out.w`. -/
def cleanBacktrack (buf : List Char) (dotdot : Nat) : Nat → Nat
  | 0 => 0
  | w + 1 =>
    if dotdot < w + 1 ∧ buf.getD (w + 1) '/' ≠ '/' then cleanBacktrack buf dotdot w
    else w + 1

/-- The main loop `for r < n { switch { ... } }` of `path.Clean`.  `rest` is
`path[r:]`, `out` is the written part `buf[:w]` of the output buffer; the result
is the final value of `out` and of `dotdot`.  Every iteration consumes at least
one byte of `rest`, so a budget of `len(path)` iterations is never exhausted. -/
def cleanLoop (rooted : Bool) : Nat → List Char → List Char → Nat → List Char × Nat
  | 0, _, out, dotdot => (out, dotdot)
  | _ + 1, [], out, dotdot => (out, dotdot)
  | fuel + 1, c :: rest, out, dotdot =>
    if c = '/' then
      -- empty path element
      cleanLoop rooted fuel rest out dotdot
    else if c = '.' ∧ (rest = [] ∨ rest.head? = some '/') then
      -- . element
      cleanLoop rooted fuel rest out dotdot
    else if c = '.' ∧ rest.head? = some '.' ∧
        (rest.tail = [] ∨ rest.tail.head? = some '/') then
      -- .. element: remove to last /
      if dotdot < out.length then
        -- can backtrack
        cleanLoop rooted fuel rest.tail
          (out.take (cleanBacktrack out dotdot (out.length - 1))) dotdot
      else if !rooted then
        -- cannot backtrack, but not rooted, so append .. element
        let out1 := if 0 < out.length then out ++ ['/'] else out
        let out2 := out1 ++ ['.', '.']
        cleanLoop rooted fuel rest.tail out2 out2.length
      else
        cleanLoop rooted fuel rest.tail out dotdot
    else
      -- real path element: add slash if needed, copy element
      let out1 :=
        if (rooted ∧ out.length ≠ 1) ∨ (!rooted ∧ out.length ≠ 0) then out ++ ['/'] else out
      cleanLoop rooted fuel ((c :: rest).dropWhile (· ≠ '/'))
        (out1 ++ (c :: rest).takeWhile (· ≠ '/')) dotdot

/-- Go `path.Clean`: the shortest path name equivalent to `path` by purely
lexical processing. -/
def Clean (path : String) : String :=
  if path = "" then "."
  else
    let rooted := path.data.head? = some '/'
    let out :=
      if rooted then (cleanLoop true path.data.length path.data.tail ['/'] 1).1
      else (cleanLoop false path.data.length path.data [] 0).1
    -- Turn empty string into "."
    if out.length = 0 then "." else ⟨out⟩

/-! ## `filterExt` -/

/-- The inner loop of `filterExt`: `for _, ext := range exts`, appending
`fileName` once for every `ext` equal to `path.Ext(fileName)`. -/
def filterExtInner (fileName : String) (filteredFileNames : List String) :
    List String → List String
  | [] => filteredFileNames
  | ext :: exts =>
    if Ext fileName = ext then filterExtInner fileName (filteredFileNames ++ [fileName]) exts
    else filterExtInner fileName filteredFileNames exts

/-- The outer loop of `filterExt`: `for _, fileName := range fileNames`. -/
def filterExtOuter (exts : List String) (filteredFileNames : List String) :
    List String → List String
  | [] => filteredFileNames
  | fileName :: fileNames =>
    filterExtOuter exts (filterExtInner fileName filteredFileNames exts) fileNames

/-- Go `filterExt(exts, fileNames)`; `var filteredFileNames []string` starts
empty. -/
def filterExt (exts : List String) (fileNames : List String) : List String :=
  filterExtOuter exts [] fileNames

/-! ## `writeList` -/

/-- The loop of `writeList` that builds `outputString`:
`for index, name := range namesToWrite`, with `numNames := len(namesToWrite)`.
The comparison `index == numNames-1` is made on Go `int`s, so `numNames - 1`
is `-1` for the empty list. -/
def writeLoop (numNames : Nat) : Nat → String → List String → String
  | _, outputString, [] => outputString
  | index, outputString, name :: names =>
    if (index : Int) = (numNames : Int) - 1 then
      writeLoop numNames (index + 1) (outputString ++ name) names
    else
      writeLoop numNames (index + 1) (outputString ++ (name ++ "\n")) names

/-- The text `writeList` hands to `outputFile.WriteString`. -/
def outputString (namesToWrite : List String) : String :=
  writeLoop namesToWrite.length 0 "" namesToWrite

/-- Answers of the operating system to the calls `writeList` makes. -/
structure OutputEnv where
  /-- `os.Stat(fileName)` returned `err == nil`: the file exists. -/
  statOk : Bool
  /-- `os.Create(fileName)` returned `err == nil`. -/
  createOk : Bool
  /-- `outputFile.WriteString` returned `err == nil`. -/
  writeOk : Bool

/-- File-system calls issued on the output side, in program order. -/
inductive FileCall where
  | remove (fileName : String)
  | create (fileName : String)
  | writeString (fileName : String) (text : String)
  | close (fileName : String)
  deriving DecidableEq, Repr

/-- Go `writeList(fileName, namesToWrite)`: the calls it issues and whether it
returns `nil` (`true`) or an error (`false`).  Console messages are left out. -/
def writeList (env : OutputEnv) (fileName : String) (namesToWrite : List String) :
    List FileCall × Bool :=
  let calls := if env.statOk then [FileCall.remove fileName] else []
  let calls := calls ++ [FileCall.create fileName]
  if !env.createOk then (calls, false)
  else
    let calls := calls ++ [FileCall.writeString fileName (outputString namesToWrite)]
    -- the deferred `outputFile.Close()` runs on both return paths
    if !env.writeOk then (calls ++ [FileCall.close fileName], false)
    else (calls ++ [FileCall.close fileName], true)

/-! ## `traverseFolder` -/

/-- One `os.FileInfo` of a directory listing, as far as the program looks at
it: `Name()` and `IsDir()`. -/
structure FileInfo where
  name : String
  isDir : Bool
  deriving DecidableEq, Repr

/-- The function `ioutil.ReadDir`: the listing of a directory, or `none` when it
returns an error. -/
abbrev ReadDir := String → Option (List FileInfo)

/-- How a run of `traverseFolder` (or of `main`) ends. -/
inductive Outcome (α : Type) where
  /-- Normal return. -/
  | ok (val : α)
  /-- The call `log.Fatal(err)`: the process exits with status 1.  `what` is the
  path given to the system call that failed. -/
  | fatal (what : String)
  /-- Run-time panic "index out of range" of a store into a fixed-size array. -/
  | indexOutOfRange
  /-- The recursion budget of this embedding ran out; not a behaviour of the
  program. -/
  | outOfFuel
  deriving DecidableEq, Repr

/-- Sequencing of steps: the first abnormal end is the end of the run. -/
def Outcome.bind {α β : Type} : Outcome α → (α → Outcome β) → Outcome β
  | .ok a, f => f a
  | .fatal w, _ => .fatal w
  | .indexOutOfRange, _ => .indexOutOfRange
  | .outOfFuel, _ => .outOfFuel

/-- Go `string(os.PathSeparator)` on a Unix system. -/
def pathSeparator : String := "/"

/-- Length of `var directories [5000]string`. -/
def directoriesLen : Nat := 5000

/-- Length of `var realFiles [10000]string`. -/
def realFilesLen : Nat := 10000

/-- The local variables of `traverseFolder` that the first loop updates. -/
structure Locals where
  directories : List String
  realFiles : List String
  fileIdx : Nat
  dirIdx : Nat
  deriving DecidableEq, Repr

/-- The locals after `var directories [5000]string`, `var realFiles
[10000]string`, `fileIdx := 0`, `dirIdx := 0`: both arrays hold zero values,
that is empty strings. -/
def Locals.init : Locals :=
  { directories := List.replicate directoriesLen "",
    realFiles := List.replicate realFilesLen "",
    fileIdx := 0,
    dirIdx := 0 }

/-- The array store `arr[i] = v`: Go panics when `i` is not below the length
of the array. -/
def arrayStore (arr : List String) (i : Nat) (v : String) : Outcome (List String) :=
  if i < arr.length then .ok (arr.set i v) else .indexOutOfRange

/-- Body of `for _, file := range files` in `traverseFolder`. -/
def partitionStep (folder : String) (st : Locals) (file : FileInfo) : Outcome Locals :=
  if !file.isDir then
    (arrayStore st.realFiles st.fileIdx (Clean (folder ++ pathSeparator ++ file.name))).bind
      fun realFiles => .ok { st with realFiles := realFiles, fileIdx := st.fileIdx + 1 }
  else
    (arrayStore st.directories st.dirIdx (Clean (folder ++ pathSeparator ++ file.name))).bind
      fun directories => .ok { st with directories := directories, dirIdx := st.dirIdx + 1 }

/-- The loop `for _, file := range files` in `traverseFolder`. -/
def partitionLoop (folder : String) : Locals → List FileInfo → Outcome Locals
  | st, [] => .ok st
  | st, file :: files => (partitionStep folder st file).bind fun st1 => partitionLoop folder st1 files

/-- The loop `for _, dir := range directories` in `traverseFolder`, with the
recursive call abstracted as `recurse`: every non-empty slot is traversed and
its result appended to `fileNames`. -/
def descendLoop (recurse : String → Outcome (List String)) :
    List String → List String → Outcome (List String)
  | fileNames, [] => .ok fileNames
  | fileNames, dir :: directories =>
    if dir ≠ "" then
      (recurse dir).bind fun nextDir => descendLoop recurse (fileNames ++ nextDir) directories
    else descendLoop recurse fileNames directories

/-- Go `traverseFolder(folder, runRecursive)`.  The first argument is the
file system seen through `ioutil.ReadDir`; the second bounds the depth of the
recursion (the Go function has no such bound and does not return on a cyclic
directory structure). -/
def traverseFolder (readDir : ReadDir) : Nat → String → Bool → Outcome (List String)
  | 0, _, _ => .outOfFuel
  | fuel + 1, folder, runRecursive =>
    match readDir folder with
    | none => .fatal folder
    | some files =>
      (partitionLoop folder Locals.init files).bind fun st =>
        -- Stop going if there are no more directories.
        let runRecursive := if st.dirIdx = 0 then false else runRecursive
        let fileNames := st.realFiles.take st.fileIdx
        if runRecursive then
          descendLoop (fun dir => traverseFolder readDir fuel dir true) fileNames st.directories
        else .ok fileNames

/-! ## `main` -/

/-- Go `strings.Split(s, sep)` for a separator `sep` of one byte: the pieces of
`s` between consecutive occurrences of `sep`. -/
def stringsSplit (s : String) (sep : Char) : List String :=
  (s.data.splitOn sep).map String.mk

/-- The command-line flags after `flag.Parse()`. -/
structure Flags where
  dir : String
  recursive : Bool
  out : String
  ext : String

/-- A run of the program: the output-side file-system calls it issued and how
it ended. -/
structure Run where
  calls : List FileCall
  ending : Outcome Unit
  deriving DecidableEq, Repr

/-- Go `main`, console messages left out.  A traversal that does not return
ends the process before `writeList` is called. -/
def main (readDir : ReadDir) (env : OutputEnv) (fuel : Nat) (flags : Flags) : Run :=
  match traverseFolder readDir fuel flags.dir flags.recursive with
  | .ok foundFiles =>
    let foundFiles :=
      if flags.ext ≠ "" then filterExt (stringsSplit flags.ext ',') foundFiles else foundFiles
    match writeList env flags.out foundFiles with
    | (calls, true) => { calls := calls, ending := .ok () }
    | (calls, false) => { calls := calls, ending := .fatal flags.out }
  | .fatal what => { calls := [], ending := .fatal what }
  | .indexOutOfRange => { calls := [], ending := .indexOutOfRange }
  | .outOfFuel => { calls := [], ending := .outOfFuel }

/-! ## Directory trees

The file system as the claims about the traversal describe it: a finite tree.
These definitions are the reference against which `traverseFolder` is
compared; none of them is used by the embedding of the program. -/

/-- The path the program gives to an entry `name` of the directory `folder`:
`path.Clean(folder + pathSeparator + file.Name())`. -/
def childPath (folder name : String) : String :=
  Clean (folder ++ pathSeparator ++ name)

/-- An entry of a directory together with everything below it. -/
inductive FsNode where
  /-- An entry that is not a directory. -/
  | file (name : String)
  /-- A subdirectory that can be read, with its entries in listing order. -/
  | dir (name : String) (entries : List FsNode)
  /-- A subdirectory on which `ioutil.ReadDir` fails. -/
  | unreadable (name : String)
  deriving Repr

/-- What `ioutil.ReadDir` of the parent reports about an entry. -/
def FsNode.info : FsNode → FileInfo
  | .file name => { name := name, isDir := false }
  | .dir name _ => { name := name, isDir := true }
  | .unreadable name => { name := name, isDir := true }

/-- Paths of the non-directory entries of one listing, in listing order. -/
def ownFiles (folder : String) (files : List FileInfo) : List String :=
  (files.filter fun file => !file.isDir).map fun file => childPath folder file.name

/-- Paths of the directory entries of one listing, in listing order. -/
def ownDirs (folder : String) (files : List FileInfo) : List String :=
  (files.filter fun file => file.isDir).map fun file => childPath folder file.name

/-- One listing honours the lengths of the two arrays. -/
def listingWithinBounds (files : List FileInfo) : Bool :=
  decide ((files.filter fun file => !file.isDir).length ≤ realFilesLen) &&
    decide ((files.filter fun file => file.isDir).length ≤ directoriesLen)

mutual
/-- Paths of the non-directory entries at every depth below one entry of
`folder`: for a readable subdirectory its own files, then what lies below each
of its entries, in listing order. -/
def FsNode.filesBelow (folder : String) : FsNode → List String
  | .file _ => []
  | .dir name entries =>
    ownFiles (childPath folder name) (entries.map FsNode.info) ++
      filesBelowList (childPath folder name) entries
  | .unreadable _ => []
/-- Concatenation of `FsNode.filesBelow` over the entries of `folder`. -/
def filesBelowList (folder : String) : List FsNode → List String
  | [] => []
  | node :: rest => node.filesBelow folder ++ filesBelowList folder rest
end

/-- Paths of all non-directory entries of the tree rooted at `folder`: the
root's own files in listing order, followed, for each subdirectory in listing
order, by the same list for that subdirectory. -/
def allFiles (folder : String) (entries : List FsNode) : List String :=
  ownFiles folder (entries.map FsNode.info) ++ filesBelowList folder entries

mutual
/-- Number of non-directory entries at and below one entry. -/
def FsNode.countFiles : FsNode → Nat
  | .file _ => 1
  | .dir _ entries => countFilesList entries
  | .unreadable _ => 0
/-- Number of non-directory entries at every depth of a tree. -/
def countFilesList : List FsNode → Nat
  | [] => 0
  | node :: rest => node.countFiles + countFilesList rest
end

mutual
/-- Number of directory levels at and below one entry. -/
def FsNode.depth : FsNode → Nat
  | .file _ => 0
  | .dir _ entries => depthList entries + 1
  | .unreadable _ => 1
/-- Number of directory levels below a listing. -/
def depthList : List FsNode → Nat
  | [] => 0
  | node :: rest => max node.depth (depthList rest)
end

mutual
/-- Every readable directory at and below one entry honours the array
lengths. -/
def FsNode.withinBounds : FsNode → Bool
  | .file _ => true
  | .dir _ entries => listingWithinBounds (entries.map FsNode.info) && withinBoundsList entries
  | .unreadable _ => true
/-- Every readable directory below a listing honours the array lengths. -/
def withinBoundsList : List FsNode → Bool
  | [] => true
  | node :: rest => node.withinBounds && withinBoundsList rest
end

mutual
/-- Some directory at or below one entry cannot be read. -/
def FsNode.hasUnreadable : FsNode → Bool
  | .file _ => false
  | .dir _ entries => hasUnreadableList entries
  | .unreadable _ => true
/-- Some directory below a listing cannot be read. -/
def hasUnreadableList : List FsNode → Bool
  | [] => false
  | node :: rest => node.hasUnreadable || hasUnreadableList rest
end

mutual
/-- The file system `readDir` shows, at the path the program computes for it,
exactly the subtree of one entry of `folder`. -/
def FsNode.mounted (readDir : ReadDir) (folder : String) : FsNode → Bool
  | .file _ => true
  | .dir name entries =>
    decide (readDir (childPath folder name) = some (entries.map FsNode.info)) &&
      mountedList readDir (childPath folder name) entries
  | .unreadable name => decide (readDir (childPath folder name) = none)
/-- Every entry of `folder` is mounted. -/
def mountedList (readDir : ReadDir) (folder : String) : List FsNode → Bool
  | [] => true
  | node :: rest => node.mounted readDir folder && mountedList readDir folder rest
end

/-- The directory `root` of the file system `readDir` is readable and is the
root of the finite tree `entries`. -/
def Mounted (readDir : ReadDir) (root : String) (entries : List FsNode) : Prop :=
  readDir root = some (entries.map FsNode.info) ∧ mountedList readDir root entries = true

instance (readDir : ReadDir) (root : String) (entries : List FsNode) :
    Decidable (Mounted readDir root entries) :=
  inferInstanceAs (Decidable (_ ∧ _))

/-- Every directory of the tree, the root included, honours the array lengths:
at most 10000 non-directory entries and at most 5000 subdirectories. -/
def WithinBounds (entries : List FsNode) : Prop :=
  listingWithinBounds (entries.map FsNode.info) = true ∧ withinBoundsList entries = true

instance (entries : List FsNode) : Decidable (WithinBounds entries) :=
  inferInstanceAs (Decidable (_ ∧ _))

/-! ## Path elements and cleaned paths

Reference notions for the facts about `path.Clean`: the output of its loop is
the text of a stack of path elements. -/

/-- The main loop of `path.Clean` run on `rest` with a budget of one iteration
per byte of `rest`, which it never exhausts. -/
def cleanRun (rooted : Bool) (rest out : List Char) (dotdot : Nat) : List Char × Nat :=
  cleanLoop rooted rest.length rest out dotdot

/-- The input read so far ends a path element: the rest of the input is empty
or begins with a slash (the tests `r+1 == n || path[r+1] == '/'` of the loop). -/
def atBoundary (rest : List Char) : Prop := rest = [] ∨ rest.head? = some '/'

/-- The statement `if rooted && out.w != 1 || !rooted && out.w != 0 {
out.append('/') }` of the loop. -/
def addSlash (rooted : Bool) (out : List Char) : List Char :=
  if (rooted = true ∧ out.length ≠ 1) ∨ ((!rooted) = true ∧ out.length ≠ 0) then out ++ ['/']
  else out

/-- A path element the loop copies: not empty, without slash, neither `.` nor `..`. -/
def ProperName (n : List Char) : Prop :=
  n ≠ [] ∧ '/' ∉ n ∧ n ≠ ['.'] ∧ n ≠ ['.', '.']

/-- The text of a stack of path elements. -/
def render (rooted : Bool) (stack : List (List Char)) : List Char :=
  (if rooted = true then ['/'] else []) ++ ['/'].intercalate stack

/-- The slash written before an element that is pushed on a stack. -/
def sepOf (stack : List (List Char)) : List Char :=
  if stack = [] then [] else ['/']

/-- A stack of `k` elements `..`. -/
def dots (k : Nat) : List (List Char) := List.replicate k ['.', '.']

/-- The last statement of `path.Clean`: the empty output becomes `.`. -/
def cleanFinish (out : List Char) : String :=
  if out.length = 0 then "." else ⟨out⟩

/-- The path of the entry reached from `root` through the names of `chain`. -/
def pathOf (root : String) (chain : List String) : String :=
  chain.foldl childPath root

instance (n : List Char) : Decidable (ProperName n) :=
  inferInstanceAs (Decidable (_ ∧ _ ∧ _ ∧ _))

/-- The name of an entry. -/
def FsNode.name : FsNode → String
  | .file name => name
  | .dir name _ => name
  | .unreadable name => name

mutual
/-- The names at and below one entry are names a directory can hold, and no
directory below it lists a name twice. -/
def FsNode.wellFormed : FsNode → Bool
  | .file name => decide (ProperName name.data)
  | .dir name entries =>
    decide (ProperName name.data) && decide ((entries.map FsNode.name).Nodup) &&
      wellFormedList entries
  | .unreadable name => decide (ProperName name.data)
/-- Every entry of a listing is well formed. -/
def wellFormedList : List FsNode → Bool
  | [] => true
  | node :: rest => node.wellFormed && wellFormedList rest
end

/-- A tree as a file system can hold it: in every directory the names are
pairwise distinct, not empty, without slash and neither `.` nor `..`. -/
def WellFormed (entries : List FsNode) : Prop :=
  (entries.map FsNode.name).Nodup ∧ wellFormedList entries = true

instance (entries : List FsNode) : Decidable (WellFormed entries) :=
  inferInstanceAs (Decidable (_ ∧ _))

/-- The chains of names that lead to the non-directory entries of one
listing. -/
def ownChains (entries : List FsNode) : List (List String) :=
  ((entries.map FsNode.info).filter fun file => !file.isDir).map fun file => [file.name]

mutual
/-- The chains of names that lead from the parent of an entry to the
non-directory entries below that entry. -/
def FsNode.chainsBelow : FsNode → List (List String)
  | .file _ => []
  | .dir name entries => (ownChains entries ++ chainsBelowList entries).map fun chain => name :: chain
  | .unreadable _ => []
/-- Concatenation of `FsNode.chainsBelow` over a listing. -/
def chainsBelowList : List FsNode → List (List String)
  | [] => []
  | node :: rest => node.chainsBelow ++ chainsBelowList rest
end

/-! ## Sample file systems -/

/-- The tree of the scenario of the specification: `a.txt`, `b.log` and a
subdirectory `sub` that holds `c.txt`. -/
def sampleDir : List FsNode :=
  [.file "a.txt", .file "b.log", .dir "sub" [.file "c.txt"]]

/-- A file system that shows `sampleDir` at `./`. -/
def sampleFs : ReadDir := fun path =>
  if path = "./" then some (sampleDir.map FsNode.info)
  else if path = "sub" then some [{ name := "c.txt", isDir := false }]
  else none

/-- A tree with a subdirectory `priv` that cannot be read. -/
def lockedDir : List FsNode :=
  [.file "a.txt", .unreadable "priv", .dir "sub" [.file "c.txt"]]

/-- A file system that shows `lockedDir` at `./`. -/
def lockedFs : ReadDir := fun path =>
  if path = "./" then some (lockedDir.map FsNode.info)
  else if path = "sub" then some [{ name := "c.txt", isDir := false }]
  else none

/-- A file name of six bytes: `f` followed by the five decimal digits of `i`.
Different numbers below 100000 get different names, and the names are ordered
as the numbers are. -/
def numberedName (i : Nat) : String :=
  String.mk ['f', Nat.digitChar (i / 10000 % 10), Nat.digitChar (i / 1000 % 10),
    Nat.digitChar (i / 100 % 10), Nat.digitChar (i / 10 % 10), Nat.digitChar (i % 10)]

/-- A listing of `n` non-directory entries `f00000`, `f00001`, ... -/
def manyFiles (n : Nat) : List FsNode :=
  (List.range n).map fun i => FsNode.file (numberedName i)

/-- A directory with 10001 non-directory entries and nothing else. -/
def crowdedDir : List FsNode := manyFiles 10001

/-- A file system that shows `crowdedDir` at `big`. -/
def crowdedFs : ReadDir := fun path =>
  if path = "big" then some (crowdedDir.map FsNode.info) else none

/-- A directory with 10001 non-directory entries and a subdirectory `zz` that
cannot be read. -/
def crowdedLockedDir : List FsNode := manyFiles 10001 ++ [FsNode.unreadable "zz"]

/-- A file system that shows `crowdedLockedDir` at `big`. -/
def crowdedLockedFs : ReadDir := fun path =>
  if path = "big" then some (crowdedLockedDir.map FsNode.info) else none

/-! ## Facts about the library functions -/

theorem extLoop_empty_or_dot (path : List Char) (k : Nat) :
    extLoop path k = [] ∨ (extLoop path k).head? = some '.' := by
  induction k with
  | zero => left; rfl
  | succ i ih =>
    unfold extLoop
    split
    · left; rfl
    · split
      · rename_i h1 h2
        right
        rw [List.head?_drop]
        rw [List.getD_eq_getElem?_getD] at h2
        cases h : path[i]? with
        | none => simp [h] at h2
        | some c =>
          simp [h] at h2
          simp [h2]
      · exact ih

theorem Ext_empty_or_dot (path : String) :
    Ext path = "" ∨ (Ext path).data.head? = some '.' := by
  rcases extLoop_empty_or_dot path.data path.data.length with h | h
  · left; unfold Ext; rw [h]
  · right; unfold Ext; exact h

theorem mk_ne_empty (out : List Char) (h : ¬ out.length = 0) : String.mk out ≠ "" := by
  intro e
  apply h
  have e2 := congrArg String.data e
  simp at e2
  simp [e2]

theorem Clean_ne_empty (path : String) : Clean path ≠ "" := by
  unfold Clean
  simp only
  split_ifs with h1 h2 h3 h4
  · decide
  · decide
  · exact mk_ne_empty _ h3
  · decide
  · exact mk_ne_empty _ h4

/-! ## Facts about `filterExt` -/

theorem filterExtInner_eq (fileName : String) (acc exts : List String) :
    filterExtInner fileName acc exts =
      acc ++ List.replicate (exts.count (Ext fileName)) fileName := by
  induction exts generalizing acc with
  | nil => simp [filterExtInner]
  | cons ext exts ih =>
    unfold filterExtInner
    by_cases h : Ext fileName = ext
    · subst h
      simp [ih, List.replicate_succ]
    · have h2 : ¬ ext = Ext fileName := fun e => h e.symm
      simp [h, h2, ih, List.count_cons]

theorem filterExtOuter_eq (exts acc fileNames : List String) :
    filterExtOuter exts acc fileNames =
      acc ++ fileNames.flatMap fun f => List.replicate (exts.count (Ext f)) f := by
  induction fileNames generalizing acc with
  | nil => simp [filterExtOuter]
  | cons f fs ih =>
    simp [filterExtOuter, ih, filterExtInner_eq, List.flatMap_cons]

theorem filterExt_eq (exts fileNames : List String) :
    filterExt exts fileNames =
      fileNames.flatMap fun f => List.replicate (exts.count (Ext f)) f := by
  simp [filterExt, filterExtOuter_eq]


theorem filterExt_of_nodup (exts fileNames : List String) (h : exts.Nodup) :
    filterExt exts fileNames = fileNames.filter fun f => decide (Ext f ∈ exts) := by
  rw [filterExt_eq]
  induction fileNames with
  | nil => rfl
  | cons f fs ih =>
    rw [List.flatMap_cons, ih, List.count_eq_of_nodup h]
    by_cases hm : Ext f ∈ exts
    · simp [hm, List.filter_cons]
    · simp [hm, List.filter_cons]

theorem mem_filterExt (exts fileNames : List String) (p : String) :
    p ∈ filterExt exts fileNames ↔ p ∈ fileNames ∧ Ext p ∈ exts := by
  rw [filterExt_eq]
  simp only [List.mem_flatMap, List.mem_replicate]
  constructor
  · rintro ⟨f, hf, hc, rfl⟩
    exact ⟨hf, List.count_pos_iff.mp (Nat.pos_of_ne_zero hc)⟩
  · rintro ⟨hp, he⟩
    exact ⟨p, hp, Nat.pos_iff_ne_zero.mp (List.count_pos_iff.mpr he), rfl⟩

/-! ## Facts about `writeList` -/

theorem writeLoop_data (numNames : Nat) (names : List String) (index : Nat) (acc : String)
    (h : index + names.length = numNames) :
    (writeLoop numNames index acc names).data =
      acc.data ++ ['\n'].intercalate (names.map String.data) := by
  induction names generalizing index acc with
  | nil => simp [writeLoop, List.intercalate]
  | cons name rest ih =>
    unfold writeLoop
    cases rest with
    | nil =>
      have h1 : (index : Int) = (numNames : Int) - 1 := by
        simp at h; omega
      simp [h1, writeLoop, List.intercalate]
    | cons name2 rest2 =>
      have h1 : ¬ (index : Int) = (numNames : Int) - 1 := by
        simp at h; omega
      rw [if_neg h1, ih (index + 1) _ (by simp at h ⊢; omega)]
      simp [List.intercalate, List.intersperse_cons_cons]

theorem outputString_data (names : List String) :
    (outputString names).data = ['\n'].intercalate (names.map String.data) := by
  unfold outputString
  rw [writeLoop_data names.length names 0 "" (by simp)]
  rfl

theorem intercalate_go_data (acc s : String) (l : List String) :
    (String.intercalate.go acc s l).data =
      acc.data ++ (l.map fun a => s.data ++ a.data).flatten := by
  induction l generalizing acc with
  | nil => simp [String.intercalate.go]
  | cons a l ih => simp [String.intercalate.go, ih]

theorem intercalate_data (s : String) (l : List String) :
    (s.intercalate l).data = s.data.intercalate (l.map String.data) := by
  cases l with
  | nil => rfl
  | cons a l =>
    simp only [String.intercalate, intercalate_go_data]
    induction l generalizing a with
    | nil => simp [List.intercalate]
    | cons b l ih =>
      have := ih b
      simp [List.intercalate, List.intersperse_cons_cons] at this ⊢
      exact this

theorem outputString_eq_intercalate (names : List String) :
    outputString names = "\n".intercalate names := by
  apply String.ext
  rw [outputString_data, intercalate_data]


/-! ## Facts about the first loop of `traverseFolder` -/

theorem arrayStore_free (written : List String) (free : Nat) (v : String) :
    arrayStore (written ++ List.replicate (free + 1) "") written.length v =
      .ok ((written ++ [v]) ++ List.replicate free "") := by
  unfold arrayStore
  have h : written.length < (written ++ List.replicate (free + 1) "").length := by
    simp
  rw [if_pos h, List.set_append_right _ _ (Nat.le_refl _)]
  simp [List.replicate_succ]

theorem arrayStore_full (written : List String) (v : String) :
    arrayStore (written ++ List.replicate 0 "") written.length v = .indexOutOfRange := by
  unfold arrayStore
  simp

theorem partitionLoop_ok (folder : String) (files : List FileInfo) (ds fs : List String)
    (a b : Nat)
    (hf : (files.filter fun file => !file.isDir).length ≤ b)
    (hd : (files.filter fun file => file.isDir).length ≤ a) :
    partitionLoop folder
        { directories := ds ++ List.replicate a "", realFiles := fs ++ List.replicate b "",
          fileIdx := fs.length, dirIdx := ds.length } files =
      .ok { directories := (ds ++ ownDirs folder files) ++
              List.replicate (a - (ownDirs folder files).length) "",
            realFiles := (fs ++ ownFiles folder files) ++
              List.replicate (b - (ownFiles folder files).length) "",
            fileIdx := (fs ++ ownFiles folder files).length,
            dirIdx := (ds ++ ownDirs folder files).length } := by
  induction files generalizing ds fs a b with
  | nil => simp [partitionLoop, ownDirs, ownFiles]
  | cons file files ih =>
    unfold partitionLoop partitionStep
    cases hdir : file.isDir with
    | false =>
      simp only [hdir, List.filter_cons, Bool.not_false, if_true, List.length_cons] at hf hd
      obtain ⟨b1, rfl⟩ : ∃ b1, b = b1 + 1 := ⟨b - 1, by omega⟩
      simp only [Bool.not_false, if_true, arrayStore_free, Outcome.bind]
      have := ih ds (fs ++ [childPath folder file.name]) a b1 (by omega) (by simpa using hd)
      simp only [List.length_append, List.length_singleton] at this
      simp only [childPath] at this
      rw [this]
      simp [ownFiles, ownDirs, List.filter_cons, hdir, childPath]
      omega
    | true =>
      simp only [hdir, List.filter_cons, Bool.not_true, if_true, List.length_cons] at hf hd
      obtain ⟨a1, rfl⟩ : ∃ a1, a = a1 + 1 := ⟨a - 1, by omega⟩
      simp only [Bool.not_true, arrayStore_free, Outcome.bind]
      have := ih (ds ++ [childPath folder file.name]) fs a1 b (by simpa using hf) (by omega)
      simp only [List.length_append, List.length_singleton] at this
      simp only [childPath] at this
      simp only [Bool.false_eq_true, if_false]
      rw [this]
      simp [ownFiles, ownDirs, List.filter_cons, hdir, childPath]
      omega


theorem partitionLoop_overflow (folder : String) (files : List FileInfo) (ds fs : List String)
    (a b : Nat)
    (h : b < (files.filter fun file => !file.isDir).length ∨
      a < (files.filter fun file => file.isDir).length) :
    partitionLoop folder
        { directories := ds ++ List.replicate a "", realFiles := fs ++ List.replicate b "",
          fileIdx := fs.length, dirIdx := ds.length } files = .indexOutOfRange := by
  induction files generalizing ds fs a b with
  | nil => simp at h
  | cons file files ih =>
    unfold partitionLoop partitionStep
    cases hdir : file.isDir with
    | false =>
      simp only [hdir, List.filter_cons, Bool.not_false, if_true, List.length_cons] at h
      simp only [Bool.not_false, if_true]
      cases b with
      | zero => simp only [arrayStore_full, Outcome.bind]
      | succ b1 =>
        simp only [arrayStore_free, Outcome.bind]
        have := ih ds (fs ++ [Clean (folder ++ pathSeparator ++ file.name)]) a b1
          (by
            rcases h with h | h
            · left; omega
            · right; simpa using h)
        simp only [List.length_append, List.length_singleton] at this
        exact this
    | true =>
      simp only [hdir, List.filter_cons, Bool.not_true, if_true, List.length_cons] at h
      simp only [Bool.not_true, Bool.false_eq_true, if_false]
      cases a with
      | zero => simp only [arrayStore_full, Outcome.bind]
      | succ a1 =>
        simp only [arrayStore_free, Outcome.bind]
        have := ih (ds ++ [Clean (folder ++ pathSeparator ++ file.name)]) fs a1 b
          (by
            rcases h with h | h
            · left; simpa using h
            · right; omega)
        simp only [List.length_append, List.length_singleton] at this
        exact this

theorem partitionLoop_init_ok (folder : String) (files : List FileInfo)
    (h : listingWithinBounds files = true) :
    partitionLoop folder Locals.init files =
      .ok { directories := ownDirs folder files ++
              List.replicate (directoriesLen - (ownDirs folder files).length) "",
            realFiles := ownFiles folder files ++
              List.replicate (realFilesLen - (ownFiles folder files).length) "",
            fileIdx := (ownFiles folder files).length,
            dirIdx := (ownDirs folder files).length } := by
  simp only [listingWithinBounds, Bool.and_eq_true, decide_eq_true_eq] at h
  have := partitionLoop_ok folder files [] [] directoriesLen realFilesLen h.1 h.2
  simpa [Locals.init] using this

theorem partitionLoop_init_overflow (folder : String) (files : List FileInfo)
    (h : listingWithinBounds files = false) :
    partitionLoop folder Locals.init files = .indexOutOfRange := by
  have h2 : realFilesLen < (files.filter fun file => !file.isDir).length ∨
      directoriesLen < (files.filter fun file => file.isDir).length := by
    simp only [listingWithinBounds, Bool.and_eq_false_iff, decide_eq_false_iff_not] at h
    omega
  have := partitionLoop_overflow folder files [] [] directoriesLen realFilesLen h2
  simpa [Locals.init] using this

/-! ## Facts about the second loop of `traverseFolder` -/

theorem descendLoop_empty_slots (recurse : String → Outcome (List String))
    (fileNames : List String) (k : Nat) :
    descendLoop recurse fileNames (List.replicate k "") = .ok fileNames := by
  induction k with
  | zero => rfl
  | succ k ih => simp [List.replicate_succ, descendLoop, ih]


theorem descendLoop_tree (readDir : ReadDir) (n : Nat)
    (IH : ∀ folder entries, readDir folder = some (entries.map FsNode.info) →
      mountedList readDir folder entries = true → WithinBounds entries →
      depthList entries < n →
      (hasUnreadableList entries = false →
        traverseFolder readDir n folder true = .ok (allFiles folder entries)) ∧
      (hasUnreadableList entries = true →
        ∃ w, traverseFolder readDir n folder true = .fatal w))
    (folder : String) (entries : List FsNode) (k : Nat) (acc : List String)
    (hm : mountedList readDir folder entries = true)
    (hb : withinBoundsList entries = true) (hd : depthList entries ≤ n) :
    (hasUnreadableList entries = false →
      descendLoop (fun dir => traverseFolder readDir n dir true) acc
        (ownDirs folder (entries.map FsNode.info) ++ List.replicate k "") =
        .ok (acc ++ filesBelowList folder entries)) ∧
    (hasUnreadableList entries = true →
      ∃ w, descendLoop (fun dir => traverseFolder readDir n dir true) acc
        (ownDirs folder (entries.map FsNode.info) ++ List.replicate k "") = .fatal w) := by
  induction entries generalizing acc with
  | nil =>
    simp [ownDirs, descendLoop_empty_slots, filesBelowList, hasUnreadableList]
  | cons node rest ih =>
    simp only [mountedList, Bool.and_eq_true] at hm
    simp only [withinBoundsList, Bool.and_eq_true] at hb
    simp only [depthList] at hd
    have hd2 : depthList rest ≤ n := le_trans (le_max_right _ _) hd
    have hd1 : node.depth ≤ n := le_trans (le_max_left _ _) hd
    have ihr := fun acc => ih acc hm.2 hb.2 hd2
    cases node with
    | file name =>
      have e : ownDirs folder ((FsNode.file name :: rest).map FsNode.info) =
          ownDirs folder (rest.map FsNode.info) := by
        simp [ownDirs, FsNode.info, List.filter_cons]
      rw [e]
      simpa [hasUnreadableList, FsNode.hasUnreadable, filesBelowList, FsNode.filesBelow]
        using ihr acc
    | unreadable name =>
      have e : ownDirs folder ((FsNode.unreadable name :: rest).map FsNode.info) =
          childPath folder name :: ownDirs folder (rest.map FsNode.info) := by
        simp [ownDirs, FsNode.info, List.filter_cons]
      rw [e]
      simp only [FsNode.mounted, decide_eq_true_eq] at hm
      simp only [FsNode.depth] at hd1
      obtain ⟨m, rfl⟩ : ∃ m, n = m + 1 := ⟨n - 1, by omega⟩
      have hne : childPath folder name ≠ "" := Clean_ne_empty _
      constructor
      · intro h; simp [hasUnreadableList, FsNode.hasUnreadable] at h
      · intro _
        refine ⟨childPath folder name, ?_⟩
        simp only [List.cons_append, descendLoop, hne, ne_eq, not_false_eq_true, if_true]
        simp only [traverseFolder, hm.1, Outcome.bind]
    | dir name sub =>
      have e : ownDirs folder ((FsNode.dir name sub :: rest).map FsNode.info) =
          childPath folder name :: ownDirs folder (rest.map FsNode.info) := by
        simp [ownDirs, FsNode.info, List.filter_cons]
      rw [e]
      simp only [FsNode.mounted, Bool.and_eq_true, decide_eq_true_eq] at hm
      simp only [FsNode.withinBounds, Bool.and_eq_true] at hb
      simp only [FsNode.depth] at hd1
      have hne : childPath folder name ≠ "" := Clean_ne_empty _
      have hsub := IH (childPath folder name) sub hm.1.1 hm.1.2 ⟨hb.1.1, hb.1.2⟩ (by omega)
      simp only [List.cons_append, descendLoop, hne, ne_eq, not_false_eq_true, if_true]
      cases hu : hasUnreadableList sub with
      | true =>
        obtain ⟨w, hw⟩ := hsub.2 hu
        constructor
        · intro h; simp [hasUnreadableList, FsNode.hasUnreadable, hu] at h
        · intro _
          exact ⟨w, by simp only [hw, Outcome.bind]⟩
      | false =>
        have hok := hsub.1 hu
        simp only [hok, Outcome.bind]
        have := ihr (acc ++ allFiles (childPath folder name) sub)
        simpa [hasUnreadableList, FsNode.hasUnreadable, hu, filesBelowList, FsNode.filesBelow,
          allFiles] using this

theorem traverseFolder_tree (readDir : ReadDir) (fuel : Nat) :
    ∀ folder entries, readDir folder = some (entries.map FsNode.info) →
      mountedList readDir folder entries = true → WithinBounds entries →
      depthList entries < fuel →
      (hasUnreadableList entries = false →
        traverseFolder readDir fuel folder true = .ok (allFiles folder entries)) ∧
      (hasUnreadableList entries = true →
        ∃ w, traverseFolder readDir fuel folder true = .fatal w) := by
  induction fuel with
  | zero => intro folder entries _ _ _ h; omega
  | succ n IH =>
    intro folder entries hr hm hb hd
    have hloop := descendLoop_tree readDir n IH folder entries
      (directoriesLen - (ownDirs folder (entries.map FsNode.info)).length)
      (ownFiles folder (entries.map FsNode.info)) hm hb.2 (by omega)
    have hstep : traverseFolder readDir (n + 1) folder true =
        descendLoop (fun dir => traverseFolder readDir n dir true)
          (ownFiles folder (entries.map FsNode.info))
          (ownDirs folder (entries.map FsNode.info) ++ List.replicate
            (directoriesLen - (ownDirs folder (entries.map FsNode.info)).length) "") := by
      simp only [traverseFolder, hr, partitionLoop_init_ok folder _ hb.1, Outcome.bind,
        List.take_left]
      by_cases h0 : (ownDirs folder (entries.map FsNode.info)).length = 0
      · have h1 : ownDirs folder (entries.map FsNode.info) = [] := List.length_eq_zero.mp h0
        simp [h1, descendLoop_empty_slots]
      · simp [h0]
    rw [hstep]
    exact hloop


theorem traverseFolder_flat (readDir : ReadDir) (fuel : Nat) (folder : String)
    (files : List FileInfo) (hr : readDir folder = some files)
    (hb : listingWithinBounds files = true) :
    traverseFolder readDir (fuel + 1) folder false = .ok (ownFiles folder files) := by
  simp only [traverseFolder, hr, partitionLoop_init_ok folder _ hb, Outcome.bind,
    List.take_left]
  simp

theorem traverseFolder_overflow (readDir : ReadDir) (fuel : Nat) (folder : String)
    (runRecursive : Bool) (files : List FileInfo) (hr : readDir folder = some files)
    (hb : listingWithinBounds files = false) :
    traverseFolder readDir (fuel + 1) folder runRecursive = .indexOutOfRange := by
  simp only [traverseFolder, hr, partitionLoop_init_overflow folder _ hb, Outcome.bind]

theorem traverseFolder_unreadable (readDir : ReadDir) (fuel : Nat) (folder : String)
    (runRecursive : Bool) (hr : readDir folder = none) :
    traverseFolder readDir (fuel + 1) folder runRecursive = .fatal folder := by
  simp only [traverseFolder, hr]

theorem length_ownFiles_cons (folder : String) (node : FsNode) (rest : List FsNode) :
    (ownFiles folder ((node :: rest).map FsNode.info)).length =
      (if node.info.isDir then 0 else 1) + (ownFiles folder (rest.map FsNode.info)).length := by
  cases h : node.info.isDir <;> simp [ownFiles, List.filter_cons, h]
  omega

mutual
theorem FsNode.length_filesBelow (folder : String) :
    ∀ node : FsNode, (if node.info.isDir then 0 else 1) + (node.filesBelow folder).length =
      node.countFiles
  | .file _ => by simp [FsNode.info, FsNode.filesBelow, FsNode.countFiles]
  | .unreadable _ => by simp [FsNode.info, FsNode.filesBelow, FsNode.countFiles]
  | .dir name entries => by
    have := length_allFiles (childPath folder name) entries
    simpa [FsNode.info, FsNode.filesBelow, FsNode.countFiles, allFiles] using this
theorem length_allFiles (folder : String) :
    ∀ entries : List FsNode, (allFiles folder entries).length = countFilesList entries
  | [] => by simp [allFiles, ownFiles, filesBelowList, countFilesList]
  | node :: rest => by
    have h1 := FsNode.length_filesBelow folder node
    have h2 := length_allFiles folder rest
    simp only [allFiles, List.length_append, filesBelowList, countFilesList,
      length_ownFiles_cons] at h2 ⊢
    omega
end


/-! ## The filter: claims C3, C4, C5, C9, C10 -/

/-- C3: every element of `filterExt exts files` is an element of `files` whose
extension `path.Ext` is a member of `exts`, so the filter never returns a path
absent from its input; and `filterExt exts []` is empty. -/
theorem filterExt_subset (exts files : List String) :
    (∀ p ∈ filterExt exts files, p ∈ files ∧ Ext p ∈ exts) ∧ filterExt exts [] = [] :=
  ⟨fun p hp => (mem_filterExt exts files p).mp hp, rfl⟩

/-- C3 at `exts = [".txt"]` and `files = ["a.txt", "b.log"]`. -/
theorem filterExt_subset_witness :
    "a.txt" ∈ filterExt [".txt"] ["a.txt", "b.log"] ∧
      ("a.txt" ∈ ["a.txt", "b.log"] ∧ Ext "a.txt" ∈ [".txt"]) :=
  ⟨by decide, (filterExt_subset [".txt"] ["a.txt", "b.log"]).1 "a.txt" (by decide)⟩

/-- C4, evaluated at `exts = [".txt", ".txt"]` (the flag `-ext .txt,.txt`) and
`files = ["a.txt"]`: the nested loops append `"a.txt"` once for each of the two
equal extensions, so the result has two elements and is not a subsequence of
`files`. -/
theorem filterExt_repeated_ext_not_sublist :
    filterExt (stringsSplit ".txt,.txt" ',') ["a.txt"] = ["a.txt", "a.txt"] ∧
    ¬ (filterExt [".txt", ".txt"] ["a.txt"]).Sublist ["a.txt"] := by
  refine ⟨by decide, fun h => ?_⟩
  have := h.length_le
  revert this
  decide

/-- C5, evaluated at `exts = [".txt", ".txt"]` and `files = ["a.txt"]`: one pass
of the filter yields two copies of `"a.txt"`, a second pass yields four, so the
second pass changes the result. -/
theorem filterExt_repeated_ext_not_idempotent :
    filterExt [".txt", ".txt"] ["a.txt"] = ["a.txt", "a.txt"] ∧
    filterExt [".txt", ".txt"] (filterExt [".txt", ".txt"] ["a.txt"]) =
      ["a.txt", "a.txt", "a.txt", "a.txt"] ∧
    filterExt [".txt", ".txt"] (filterExt [".txt", ".txt"] ["a.txt"]) ≠
      filterExt [".txt", ".txt"] ["a.txt"] := by
  decide

/-- C9: `filterExt exts files` is the concatenation, over `files` in order, of
`k f` copies of `f`, where `k f` is the number of positions of `exts` that equal
`path.Ext f`; hence, when `exts` has no repeated element, it is `files`
restricted to the paths whose extension is a member of `exts`. -/
theorem filterExt_multiplicity (exts files : List String) :
    filterExt exts files = files.flatMap (fun f => List.replicate (exts.count (Ext f)) f) ∧
    (exts.Nodup → filterExt exts files = files.filter fun f => decide (Ext f ∈ exts)) :=
  ⟨filterExt_eq exts files, filterExt_of_nodup exts files⟩

/-- C9 at two distinct extensions and three paths. -/
theorem filterExt_multiplicity_witness :
    [".txt", ".go"].Nodup ∧
      filterExt [".txt", ".go"] ["a.txt", "b.log", "c/d.go"] =
        ["a.txt", "b.log", "c/d.go"].filter fun f => decide (Ext f ∈ [".txt", ".go"]) :=
  ⟨by decide,
    (filterExt_multiplicity [".txt", ".go"] ["a.txt", "b.log", "c/d.go"]).2 (by decide)⟩

/-- C10: `path.Ext` returns the empty string or a string beginning with a dot;
so when no element of `exts` is empty or begins with a dot, `filterExt exts
files` is empty; and a run of `main` with `-ext txt` whose traversal returns
hands the empty list to `writeList`, which writes the empty text. -/
theorem filterExt_without_leading_dot (exts files : List String)
    (h : ∀ e ∈ exts, e ≠ "" ∧ e.data.head? ≠ some '.') :
    (∀ path, Ext path = "" ∨ (Ext path).data.head? = some '.') ∧
    filterExt exts files = [] ∧
    (∀ (readDir : ReadDir) (env : OutputEnv) (fuel : Nat) (dir out : String)
      (recursive : Bool) (found : List String),
      traverseFolder readDir fuel dir recursive = .ok found →
      (main readDir env fuel { dir := dir, recursive := recursive, out := out, ext := "txt" }).calls
        = (writeList env out []).1 ∧ outputString [] = "") := by
  have key : ∀ (exts files : List String),
      (∀ e ∈ exts, e ≠ "" ∧ e.data.head? ≠ some '.') → filterExt exts files = [] := by
    intro exts files h
    apply List.eq_nil_iff_forall_not_mem.mpr
    intro p hp
    have hmem := ((mem_filterExt exts files p).mp hp).2
    rcases Ext_empty_or_dot p with h0 | h0
    · exact (h _ hmem).1 h0
    · exact (h _ hmem).2 h0
  refine ⟨Ext_empty_or_dot, key exts files h, ?_⟩
  intro readDir env fuel dir out recursive found hfound
  have hsplit : stringsSplit "txt" ',' = ["txt"] := by decide
  have hnil : filterExt ["txt"] found = [] := key ["txt"] found (by decide)
  have hne : ("txt" : String) ≠ "" := by decide
  refine ⟨?_, rfl⟩
  simp only [main, hfound, hsplit, hnil, hne, ne_eq, not_false_eq_true, if_true]
  rcases hw : writeList env out [] with ⟨calls, ok⟩
  cases ok <;> rfl

/-- C10 at the extensions `txt` and `go`, written without their dots. -/
theorem filterExt_without_leading_dot_witness :
    filterExt ["txt", "go"] ["a.txt", "b.go", "c"] = [] :=
  (filterExt_without_leading_dot ["txt", "go"] ["a.txt", "b.go", "c"] (by decide)).2.1

/-! ## The writer: claim C7 -/

/-- C7: the text `writeList` builds is the names joined by one newline between
consecutive entries, with nothing after the final entry, and is the empty text
for the empty list; `writeList` hands exactly that text to `WriteString` when
the file could be created; for a non-empty list of names none of which contains
a newline, splitting the text at newlines gives back the list; and
`["a.txt", "b/c.txt"]` is written as `"a.txt\nb/c.txt"`. -/
theorem writeList_text_round_trip (names : List String) :
    outputString names = "\n".intercalate names ∧
    outputString [] = "" ∧
    (∀ (env : OutputEnv) (fileName : String), env.createOk = true →
      FileCall.writeString fileName (outputString names) ∈ (writeList env fileName names).1) ∧
    (names ≠ [] → (∀ name ∈ names, '\n' ∉ name.data) →
      stringsSplit (outputString names) '\n' = names) ∧
    outputString ["a.txt", "b/c.txt"] = "a.txt\nb/c.txt" := by
  refine ⟨outputString_eq_intercalate names, rfl, ?_, ?_, by decide⟩
  · intro env fileName hc
    unfold writeList
    cases hw : env.writeOk <;> simp [hc, hw]
  · intro hne hnl
    unfold stringsSplit
    rw [outputString_data, List.splitOn_intercalate _ _ (by simpa using hnl) (by simpa using hne)]
    simp [List.map_map, Function.comp_def]

/-- C7 at the list `["a.txt", "b/c.txt"]` of the specification. -/
theorem writeList_text_round_trip_witness :
    stringsSplit (outputString ["a.txt", "b/c.txt"]) '\n' = ["a.txt", "b/c.txt"] :=
  (writeList_text_round_trip ["a.txt", "b/c.txt"]).2.2.2.1 (by decide) (by decide)


/-! ## Facts about the sample file systems -/

theorem numberedName_injective (i j : Nat) (hi : i < 100000) (hj : j < 100000)
    (h : numberedName i = numberedName j) : i = j := by
  have key : ∀ a < 10, ∀ b < 10, Nat.digitChar a = Nat.digitChar b → a = b := by decide
  have h := congrArg String.data h
  simp only [numberedName, List.cons.injEq, true_and, and_true] at h
  obtain ⟨h4, h3, h2, h1, h0⟩ := h
  have e4 := key _ (Nat.mod_lt _ (by decide)) _ (Nat.mod_lt _ (by decide)) h4
  have e3 := key _ (Nat.mod_lt _ (by decide)) _ (Nat.mod_lt _ (by decide)) h3
  have e2 := key _ (Nat.mod_lt _ (by decide)) _ (Nat.mod_lt _ (by decide)) h2
  have e1 := key _ (Nat.mod_lt _ (by decide)) _ (Nat.mod_lt _ (by decide)) h1
  have e0 := key _ (Nat.mod_lt _ (by decide)) _ (Nat.mod_lt _ (by decide)) h0
  omega

theorem manyFiles_names_nodup (n : Nat) (hn : n ≤ 100000) :
    ((manyFiles n).map fun node => node.info.name).Nodup := by
  unfold manyFiles
  rw [List.map_map]
  apply List.Nodup.map_on _ (List.nodup_range n)
  intro i hi j hj h
  rw [List.mem_range] at hi hj
  exact numberedName_injective i j (by omega) (by omega) (by simpa [FsNode.info] using h)

theorem manyFiles_isDir (n : Nat) : ∀ file ∈ (manyFiles n).map FsNode.info, file.isDir = false := by
  intro file hfile
  simp only [manyFiles, List.map_map, List.mem_map, Function.comp] at hfile
  obtain ⟨i, _, rfl⟩ := hfile
  rfl

theorem manyFiles_filter_files (n : Nat) :
    (((manyFiles n).map FsNode.info).filter fun file => !file.isDir).length = n := by
  rw [List.filter_eq_self.mpr]
  · simp [manyFiles]
  · intro file hfile
    simp [manyFiles_isDir n file hfile]

theorem crowdedDir_beyond_bounds : listingWithinBounds (crowdedDir.map FsNode.info) = false := by
  simp only [listingWithinBounds, crowdedDir, manyFiles_filter_files, realFilesLen,
    Bool.and_eq_false_iff, decide_eq_false_iff_not]
  left
  omega

theorem crowdedLockedDir_beyond_bounds :
    listingWithinBounds (crowdedLockedDir.map FsNode.info) = false := by
  simp only [listingWithinBounds, crowdedLockedDir, List.map_append, List.filter_append,
    List.length_append, manyFiles_filter_files, realFilesLen, Bool.and_eq_false_iff,
    decide_eq_false_iff_not]
  left
  omega

theorem mountedList_manyFiles (readDir : ReadDir) (folder : String) (n : Nat)
    (rest : List FsNode) :
    mountedList readDir folder (manyFiles n ++ rest) = mountedList readDir folder rest := by
  unfold manyFiles
  induction List.range n with
  | nil => rfl
  | cons i l ih => simpa [mountedList, FsNode.mounted] using ih

theorem hasUnreadableList_manyFiles (n : Nat) (rest : List FsNode) :
    hasUnreadableList (manyFiles n ++ rest) = hasUnreadableList rest := by
  unfold manyFiles
  induction List.range n with
  | nil => rfl
  | cons i l ih => simpa [hasUnreadableList, FsNode.hasUnreadable] using ih


/-! ## Facts about trees -/

theorem filesBelowList_eq_flatMap (folder : String) (entries : List FsNode) :
    filesBelowList folder entries = entries.flatMap fun node => node.filesBelow folder := by
  induction entries with
  | nil => rfl
  | cons node rest ih => simp [filesBelowList, ih]

theorem subtree_of_mem (readDir : ReadDir) (folder : String) (entries : List FsNode)
    (name : String) (sub : List FsNode) (hmem : FsNode.dir name sub ∈ entries)
    (hm : mountedList readDir folder entries = true)
    (hb : withinBoundsList entries = true)
    (hu : hasUnreadableList entries = false) :
    Mounted readDir (childPath folder name) sub ∧ WithinBounds sub ∧
      hasUnreadableList sub = false ∧ depthList sub < depthList entries := by
  induction entries with
  | nil => simp at hmem
  | cons node rest ih =>
    simp only [mountedList, Bool.and_eq_true] at hm
    simp only [withinBoundsList, Bool.and_eq_true] at hb
    simp only [hasUnreadableList, Bool.or_eq_false_iff] at hu
    rcases List.mem_cons.mp hmem with h | h
    · subst h
      simp only [FsNode.mounted, Bool.and_eq_true, decide_eq_true_eq] at hm
      simp only [FsNode.withinBounds, Bool.and_eq_true] at hb
      simp only [FsNode.hasUnreadable] at hu
      refine ⟨⟨hm.1.1, hm.1.2⟩, ⟨hb.1.1, hb.1.2⟩, hu.1, ?_⟩
      simp only [depthList, FsNode.depth]
      exact lt_of_lt_of_le (Nat.lt_succ_self _) (le_max_left _ _)
    · obtain ⟨h1, h2, h3, h4⟩ := ih h hm.2 hb.2 hu.2
      refine ⟨h1, h2, h3, ?_⟩
      simp only [depthList]
      exact lt_of_lt_of_le h4 (le_max_right _ _)

/-! ## Facts about `path.Clean`: normal form and child paths -/

theorem length_dropWhile_cons_le (c : Char) (rest : List Char) (h : ¬ c = '/') :
    ((c :: rest).dropWhile (· ≠ '/')).length ≤ rest.length := by
  rw [List.dropWhile_cons]
  simp only [ne_eq, h, not_false_eq_true, decide_True, if_true]
  exact (List.dropWhile_sublist _).length_le

theorem cleanLoop_fuel (rooted : Bool) :
    ∀ (f1 f2 : Nat) (rest out : List Char) (dotdot : Nat),
      rest.length ≤ f1 → rest.length ≤ f2 →
      cleanLoop rooted f1 rest out dotdot = cleanLoop rooted f2 rest out dotdot := by
  intro f1
  induction f1 with
  | zero =>
    intro f2 rest out dotdot h1 _
    have : rest = [] := List.length_eq_zero.mp (Nat.le_zero.mp h1)
    subst this
    cases f2 <;> simp [cleanLoop]
  | succ n ih =>
    intro f2 rest out dotdot h1 h2
    cases rest with
    | nil => cases f2 <;> simp [cleanLoop]
    | cons c rest =>
      obtain ⟨m, rfl⟩ : ∃ m, f2 = m + 1 := ⟨f2 - 1, by simp at h2; omega⟩
      simp only [List.length_cons, Nat.add_le_add_iff_right] at h1 h2
      have ht1 : rest.tail.length ≤ n := by rw [List.length_tail]; omega
      have ht2 : rest.tail.length ≤ m := by rw [List.length_tail]; omega
      unfold cleanLoop
      by_cases c1 : c = '/'
      · simp only [if_pos c1]
        exact ih m rest out dotdot h1 h2
      · simp only [if_neg c1]
        by_cases c2 : c = '.' ∧ (rest = [] ∨ rest.head? = some '/')
        · simp only [if_pos c2]
          exact ih m rest out dotdot h1 h2
        · simp only [if_neg c2]
          by_cases c3 : c = '.' ∧ rest.head? = some '.' ∧
              (rest.tail = [] ∨ rest.tail.head? = some '/')
          · simp only [if_pos c3]
            by_cases c4 : dotdot < out.length
            · simp only [if_pos c4]
              exact ih m _ _ _ ht1 ht2
            · simp only [if_neg c4]
              by_cases c5 : (!rooted) = true
              · simp only [if_pos c5]
                exact ih m _ _ _ ht1 ht2
              · simp only [if_neg c5]
                exact ih m _ _ _ ht1 ht2
          · simp only [if_neg c3]
            exact ih m _ _ _ (le_trans (length_dropWhile_cons_le c rest c1) h1)
              (le_trans (length_dropWhile_cons_le c rest c1) h2)

theorem cleanRun_nil (rooted : Bool) (out : List Char) (dotdot : Nat) :
    cleanRun rooted [] out dotdot = (out, dotdot) := rfl

theorem cleanRun_slash (rooted : Bool) (rest out : List Char) (dotdot : Nat) :
    cleanRun rooted ('/' :: rest) out dotdot = cleanRun rooted rest out dotdot := by
  unfold cleanRun
  rw [List.length_cons, cleanLoop, if_pos rfl]

theorem cleanRun_dot (rooted : Bool) (rest out : List Char) (dotdot : Nat)
    (h : atBoundary rest) :
    cleanRun rooted ('.' :: rest) out dotdot = cleanRun rooted rest out dotdot := by
  have h1 : ¬ ('.' : Char) = '/' := by decide
  have h2 : ('.' : Char) = '.' ∧ (rest = [] ∨ rest.head? = some '/') := ⟨rfl, h⟩
  unfold cleanRun
  rw [List.length_cons, cleanLoop, if_neg h1, if_pos h2]

theorem cleanRun_dotdot (rooted : Bool) (rest out : List Char) (dotdot : Nat)
    (h : atBoundary rest) :
    cleanRun rooted ('.' :: '.' :: rest) out dotdot =
      if dotdot < out.length then
        cleanRun rooted rest (out.take (cleanBacktrack out dotdot (out.length - 1))) dotdot
      else if (!rooted) = true then
        cleanRun rooted rest ((if 0 < out.length then out ++ ['/'] else out) ++ ['.', '.'])
          ((if 0 < out.length then out ++ ['/'] else out) ++ ['.', '.']).length
      else cleanRun rooted rest out dotdot := by
  have h1 : ¬ ('.' : Char) = '/' := by decide
  have h2 : ¬ (('.' : Char) = '.' ∧ ('.' :: rest = [] ∨ ('.' :: rest).head? = some '/')) := by
    simp
  have h3 : ('.' : Char) = '.' ∧ ('.' :: rest).head? = some '.' ∧
      (('.' :: rest).tail = [] ∨ ('.' :: rest).tail.head? = some '/') := ⟨rfl, rfl, h⟩
  have hf := fun o d => cleanLoop_fuel rooted (rest.length + 1) rest.length rest o d
    (Nat.le_succ _) (Nat.le_refl _)
  unfold cleanRun
  rw [List.length_cons, cleanLoop, if_neg h1, if_neg h2, if_pos h3]
  simp only [List.tail_cons, List.length_cons, hf]

theorem cleanRun_elem (rooted : Bool) (c : Char) (rest out : List Char) (dotdot : Nat)
    (h1 : c ≠ '/') (h2 : ¬ (c = '.' ∧ atBoundary rest))
    (h3 : ¬ (c = '.' ∧ rest.head? = some '.' ∧ atBoundary rest.tail)) :
    cleanRun rooted (c :: rest) out dotdot =
      cleanRun rooted (rest.dropWhile (· ≠ '/'))
        (addSlash rooted out ++ c :: rest.takeWhile (· ≠ '/')) dotdot := by
  have e1 : (c :: rest).dropWhile (· ≠ '/') = rest.dropWhile (· ≠ '/') := by
    simp [List.dropWhile_cons, h1]
  have e2 : (c :: rest).takeWhile (· ≠ '/') = c :: rest.takeWhile (· ≠ '/') := by
    simp [List.takeWhile_cons, h1]
  have h2a : ¬ (c = '.' ∧ (rest = [] ∨ rest.head? = some '/')) := h2
  have h3a : ¬ (c = '.' ∧ rest.head? = some '.' ∧
      (rest.tail = [] ∨ rest.tail.head? = some '/')) := h3
  unfold cleanRun
  rw [List.length_cons, cleanLoop, if_neg h1, if_neg h2a, if_neg h3a, e1, e2]
  simp only [addSlash]
  exact cleanLoop_fuel rooted _ _ _ _ _ ((List.dropWhile_sublist _).length_le) (Nat.le_refl _)

theorem atBoundary_append (xs ys : List Char) :
    atBoundary (xs ++ '/' :: ys) ↔ atBoundary xs := by
  cases xs with
  | nil => simp [atBoundary]
  | cons c xs => simp [atBoundary]

theorem takeWhile_append_slash (xs ys : List Char) :
    (xs ++ '/' :: ys).takeWhile (· ≠ '/') = xs.takeWhile (· ≠ '/') := by
  induction xs with
  | nil => simp [List.takeWhile_cons]
  | cons c xs ih =>
    by_cases h : c = '/'
    · simp [List.takeWhile_cons, h]
    · simp only [List.cons_append, List.takeWhile_cons, ne_eq, h, not_false_eq_true,
        decide_True, if_true, ih]

theorem dropWhile_append_slash (xs ys : List Char) :
    (xs ++ '/' :: ys).dropWhile (· ≠ '/') = xs.dropWhile (· ≠ '/') ++ '/' :: ys := by
  induction xs with
  | nil => simp [List.dropWhile_cons]
  | cons c xs ih =>
    by_cases h : c = '/'
    · simp [List.dropWhile_cons, h]
    · simp only [List.cons_append, List.dropWhile_cons, ne_eq, h, not_false_eq_true,
        decide_True, if_true, ih]

theorem cleanRun_append_slash (rooted : Bool) :
    ∀ (n : Nat) (xs ys out : List Char) (dotdot : Nat), xs.length ≤ n →
      cleanRun rooted (xs ++ '/' :: ys) out dotdot =
        cleanRun rooted ('/' :: ys) (cleanRun rooted xs out dotdot).1
          (cleanRun rooted xs out dotdot).2 := by
  intro n
  induction n with
  | zero =>
    intro xs ys out dotdot h
    have : xs = [] := List.length_eq_zero.mp (Nat.le_zero.mp h)
    subst this
    rfl
  | succ n ih =>
    intro xs ys out dotdot h
    cases xs with
    | nil => rfl
    | cons c xs =>
      simp only [List.length_cons, Nat.add_le_add_iff_right] at h
      rw [List.cons_append]
      by_cases c1 : c = '/'
      · subst c1
        rw [cleanRun_slash, cleanRun_slash]
        exact ih xs ys out dotdot h
      · by_cases c2 : c = '.' ∧ atBoundary xs
        · obtain ⟨rfl, hb⟩ := c2
          rw [cleanRun_dot _ _ _ _ ((atBoundary_append xs ys).mpr hb), cleanRun_dot _ _ _ _ hb]
          exact ih xs ys out dotdot h
        · by_cases c3 : c = '.' ∧ xs.head? = some '.' ∧ atBoundary xs.tail
          · obtain ⟨rfl, hh, hb⟩ := c3
            cases xs with
            | nil => simp at hh
            | cons d xs =>
              simp only [List.head?_cons, Option.some.injEq] at hh
              subst hh
              simp only [List.tail_cons] at hb
              simp only [List.length_cons] at h
              rw [List.cons_append,
                cleanRun_dotdot _ _ _ _ ((atBoundary_append xs ys).mpr hb),
                cleanRun_dotdot _ _ _ _ hb]
              split_ifs <;> exact ih xs ys _ _ (by omega)
          · have c2a : ¬ (c = '.' ∧ atBoundary (xs ++ '/' :: ys)) := by
              rw [atBoundary_append]; exact c2
            have c3a : ¬ (c = '.' ∧ (xs ++ '/' :: ys).head? = some '.' ∧
                atBoundary (xs ++ '/' :: ys).tail) := by
              intro ⟨e, hh, hb⟩
              apply c3
              cases xs with
              | nil => simp at hh
              | cons d xs =>
                simp only [List.cons_append, List.head?_cons, List.tail_cons] at hh hb
                exact ⟨e, hh, (atBoundary_append xs ys).mp hb⟩
            rw [cleanRun_elem _ _ _ _ _ c1 c2a c3a, cleanRun_elem _ _ _ _ _ c1 c2 c3,
              takeWhile_append_slash, dropWhile_append_slash]
            exact ih _ ys _ _ (le_trans (List.dropWhile_sublist _).length_le h)

theorem intersperse_concat (st : List (List Char)) (x : List Char) :
    List.intersperse ['/'] (st ++ [x]) =
      if st = [] then [x] else List.intersperse ['/'] st ++ [['/'], x] := by
  induction st with
  | nil => simp
  | cons a st ih =>
    cases st with
    | nil => simp
    | cons b st => simp at ih ⊢; exact ih

theorem render_concat (rooted : Bool) (st : List (List Char)) (x : List Char) :
    render rooted (st ++ [x]) = render rooted st ++ sepOf st ++ x := by
  unfold render sepOf List.intercalate
  rw [intersperse_concat]
  by_cases h : st = []
  · simp [h]
  · simp [h]

theorem length_render_mono (rooted : Bool) (st more : List (List Char)) :
    (render rooted st).length ≤ (render rooted (st ++ more)).length := by
  induction more using List.reverseRecOn with
  | nil => simp
  | append_singleton more x ih =>
    rw [← List.append_assoc, render_concat]
    simp only [List.length_append]
    omega

theorem length_render_lt (rooted : Bool) (st names : List (List Char)) (hne : names ≠ [])
    (hp : ∀ n ∈ names, n ≠ []) :
    (render rooted st).length < (render rooted (st ++ names)).length := by
  rw [← List.dropLast_append_getLast hne, ← List.append_assoc, render_concat]
  have h1 := length_render_mono rooted st names.dropLast
  have h2 : (names.getLast hne) ≠ [] := hp _ (List.getLast_mem hne)
  have h3 : 0 < (names.getLast hne).length := List.length_pos.mpr h2
  simp only [List.length_append]
  omega

theorem cleanRun_name (rooted : Bool) (n out : List Char) (dotdot : Nat) (h : ProperName n) :
    cleanRun rooted n out dotdot = (addSlash rooted out ++ n, dotdot) := by
  obtain ⟨h0, hs, h1, h2⟩ := h
  cases n with
  | nil => exact absurd rfl h0
  | cons c rest =>
    have hc : c ≠ '/' := fun e => hs (by simp [e])
    have hrest : ∀ x ∈ rest, x ≠ '/' := fun x hx e => hs (by subst e; simp [hx])
    have hb : ∀ l : List Char, (∀ x ∈ l, x ≠ '/') → atBoundary l → l = [] := by
      intro l hl hbl
      rcases hbl with e | e
      · exact e
      · cases l with
        | nil => rfl
        | cons d l =>
          simp only [List.head?_cons, Option.some.injEq] at e
          exact absurd e (hl d (by simp))
    have c2 : ¬ (c = '.' ∧ atBoundary rest) := by
      rintro ⟨rfl, hbr⟩
      exact h1 (by rw [hb rest hrest hbr])
    have c3 : ¬ (c = '.' ∧ rest.head? = some '.' ∧ atBoundary rest.tail) := by
      rintro ⟨rfl, hh, hbr⟩
      cases rest with
      | nil => simp at hh
      | cons d rest =>
        simp only [List.head?_cons, Option.some.injEq] at hh
        subst hh
        simp only [List.tail_cons] at hbr
        have := hb rest (fun x hx => hrest x (by simp [hx])) hbr
        exact h2 (by rw [this])
    rw [cleanRun_elem _ _ _ _ _ hc c2 c3]
    have e1 : rest.dropWhile (· ≠ '/') = [] := by
      apply List.dropWhile_eq_nil_iff.mpr
      intro x hx
      simpa using hrest x hx
    have e2 : rest.takeWhile (· ≠ '/') = rest := by
      apply List.takeWhile_eq_self_iff.mpr
      intro x hx
      simpa using hrest x hx
    rw [e1, e2, cleanRun_nil]

theorem cleanBacktrack_eq (buf : List Char) (dotdot L : Nat) (hdd : dotdot ≤ L)
    (hL : L = dotdot ∨ buf.getD L '/' = '/') :
    ∀ j, (∀ i, L < i → i ≤ L + j → buf.getD i '/' ≠ '/') →
      cleanBacktrack buf dotdot (L + j) = L := by
  intro j
  induction j with
  | zero =>
    intro _
    cases L with
    | zero => rfl
    | succ L =>
      rw [Nat.add_zero, cleanBacktrack]
      have : ¬ (dotdot < L + 1 ∧ buf.getD (L + 1) '/' ≠ '/') := by
        rintro ⟨h1, h2⟩
        rcases hL with h | h
        · omega
        · exact h2 h
      rw [if_neg this]
  | succ j ih =>
    intro h
    rw [← Nat.add_assoc, cleanBacktrack]
    have : dotdot < L + j + 1 ∧ buf.getD (L + j + 1) '/' ≠ '/' :=
      ⟨by omega, h (L + j + 1) (by omega) (by omega)⟩
    rw [if_pos this]
    exact ih (fun i h1 h2 => h i h1 (by omega))

theorem cleanBacktrack_pop (pre sep last : List Char) (dotdot : Nat)
    (hdd : dotdot ≤ pre.length) (hsep : sep = ['/'] ∨ (sep = [] ∧ pre.length = dotdot))
    (hne : last ≠ []) (hs : '/' ∉ last) :
    cleanBacktrack (pre ++ sep ++ last) dotdot ((pre ++ sep ++ last).length - 1) = pre.length := by
  have hlen : 0 < last.length := List.length_pos.mpr hne
  have e : (pre ++ sep ++ last).length - 1 = pre.length + (sep.length + last.length - 1) := by
    simp only [List.length_append]; omega
  rw [e]
  apply cleanBacktrack_eq _ _ _ hdd
  · rcases hsep with h | ⟨_, h⟩
    · right
      subst h
      rw [List.append_assoc, List.getD_append_right _ _ _ _ (Nat.le_refl _)]
      simp
    · left; exact h
  · intro i h1 h2
    rw [List.getD_append_right _ _ _ _ (by simp only [List.length_append]; rcases hsep with h | ⟨h, _⟩ <;> subst h <;> simp <;> omega)]
    rw [List.getD_eq_getElem?_getD]
    intro hcon
    have hi : i - (pre ++ sep).length < last.length := by
      simp only [List.length_append] at h2 ⊢
      rcases hsep with h | ⟨h, _⟩ <;> subst h <;> simp at h2 ⊢ <;> omega
    rw [List.getElem?_eq_getElem hi] at hcon
    simp only [Option.getD_some] at hcon
    exact hs (hcon ▸ List.getElem_mem _)

theorem length_render_nil (rooted : Bool) :
    (render rooted []).length = if rooted = true then 1 else 0 := by
  cases rooted <;> rfl

theorem addSlash_render (rooted : Bool) (st : List (List Char)) (hp : ∀ n ∈ st, n ≠ []) :
    addSlash rooted (render rooted st) = render rooted st ++ sepOf st := by
  unfold addSlash sepOf
  by_cases h : st = []
  · subst h
    cases rooted <;> simp [render, List.intercalate]
  · have := length_render_lt rooted [] st h hp
    rw [length_render_nil, List.nil_append] at this
    have hcond : (rooted = true ∧ (render rooted st).length ≠ 1) ∨
        ((!rooted) = true ∧ (render rooted st).length ≠ 0) := by
      cases rooted
      · right
        simp only [Bool.false_eq_true, if_false] at this
        exact ⟨rfl, by omega⟩
      · left
        simp only [if_true] at this
        exact ⟨rfl, by omega⟩
    rw [if_pos hcond, if_neg h]

theorem dots_ne_nil (k : Nat) : ∀ n ∈ dots k, n ≠ [] := by
  intro n hn
  rw [dots, List.mem_replicate] at hn
  rw [hn.2]
  simp

theorem stack_ne_nil (k : Nat) (names : List (List Char)) (hp : ∀ x ∈ names, ProperName x) :
    ∀ n ∈ dots k ++ names, n ≠ [] := by
  intro n hn
  rcases List.mem_append.mp hn with h | h
  · exact dots_ne_nil k n h
  · exact (hp n h).1

theorem properName_elem (c : Char) (rest : List Char) (h1 : c ≠ '/')
    (h2 : ¬ (c = '.' ∧ atBoundary rest))
    (h3 : ¬ (c = '.' ∧ rest.head? = some '.' ∧ atBoundary rest.tail)) :
    ProperName (c :: rest.takeWhile (· ≠ '/')) := by
  have hb : ∀ l : List Char, l.takeWhile (· ≠ '/') = [] → atBoundary l := by
    intro l hl
    cases l with
    | nil => left; rfl
    | cons d l =>
      right
      by_cases hd : d = '/'
      · simp [hd]
      · simp [List.takeWhile_cons, hd] at hl
  refine ⟨by simp, ?_, ?_, ?_⟩
  · intro hmem
    rcases List.mem_cons.mp hmem with h | h
    · exact h1 h.symm
    · have := List.mem_takeWhile_imp h
      simp at this
  · intro e
    simp only [List.cons.injEq] at e
    exact h2 ⟨e.1, hb rest e.2⟩
  · intro e
    simp only [List.cons.injEq] at e
    obtain ⟨e1, e2⟩ := e
    cases rest with
    | nil => simp at e2
    | cons d rest =>
      by_cases hd : d = '/'
      · simp [List.takeWhile_cons, hd] at e2
      · simp only [List.takeWhile_cons, ne_eq, hd, not_false_eq_true, decide_True, if_true,
          List.cons.injEq] at e2
        exact h3 ⟨e1, by simp [e2.1], hb rest e2.2⟩

theorem cleanRun_stack (rooted : Bool) :
    ∀ (n : Nat) (rest : List Char), rest.length ≤ n →
      ∀ (k : Nat) (names : List (List Char)), (rooted = true → k = 0) →
        (∀ x ∈ names, ProperName x) →
        ∃ (k1 : Nat) (names1 : List (List Char)), (rooted = true → k1 = 0) ∧
          (∀ x ∈ names1, ProperName x) ∧
          cleanRun rooted rest (render rooted (dots k ++ names)) (render rooted (dots k)).length =
            (render rooted (dots k1 ++ names1), (render rooted (dots k1)).length) := by
  intro n
  induction n with
  | zero =>
    intro rest h k names hk hp
    have : rest = [] := List.length_eq_zero.mp (Nat.le_zero.mp h)
    subst this
    exact ⟨k, names, hk, hp, rfl⟩
  | succ n ih =>
    intro rest h k names hk hp
    cases rest with
    | nil => exact ⟨k, names, hk, hp, rfl⟩
    | cons c rest =>
      simp only [List.length_cons, Nat.add_le_add_iff_right] at h
      by_cases c1 : c = '/'
      · subst c1
        rw [cleanRun_slash]
        exact ih rest h k names hk hp
      · by_cases c2 : c = '.' ∧ atBoundary rest
        · obtain ⟨rfl, hb⟩ := c2
          rw [cleanRun_dot _ _ _ _ hb]
          exact ih rest h k names hk hp
        · by_cases c3 : c = '.' ∧ rest.head? = some '.' ∧ atBoundary rest.tail
          · obtain ⟨rfl, hh, hb⟩ := c3
            cases rest with
            | nil => simp at hh
            | cons d rest =>
              simp only [List.head?_cons, Option.some.injEq] at hh
              subst hh
              simp only [List.tail_cons] at hb
              simp only [List.length_cons] at h
              rw [cleanRun_dotdot _ _ _ _ hb]
              by_cases hnames : names = []
              · subst hnames
                rw [List.append_nil, if_neg (Nat.lt_irrefl _)]
                cases rooted with
                | true =>
                  rw [if_neg (by decide : ¬ ((!true) = true))]
                  have := ih rest (by omega) k [] hk (by simp)
                  rwa [List.append_nil] at this
                | false =>
                  rw [if_pos (by decide : (!false) = true)]
                  have e0 : ∀ out : List Char,
                      (if 0 < out.length then out ++ ['/'] else out) = addSlash false out := by
                    intro out
                    unfold addSlash
                    by_cases h0 : out.length = 0
                    · simp [h0]
                    · have h1 : 0 < out.length := Nat.pos_of_ne_zero h0
                      simp [h0, h1]
                  have e : (if 0 < (render false (dots k)).length then
                      render false (dots k) ++ ['/'] else render false (dots k)) ++ ['.', '.'] =
                      render false (dots (k + 1)) := by
                    have e1 : dots (k + 1) = dots k ++ [['.', '.']] := List.replicate_succ' _ _
                    rw [e1, render_concat, ← addSlash_render false _ (dots_ne_nil k), e0]
                  rw [e]
                  have := ih rest (by omega) (k + 1) [] (by simp) (by simp)
                  rwa [List.append_nil] at this
              · have hlt := length_render_lt rooted (dots k) names hnames (fun x hx => (hp x hx).1)
                rw [if_pos hlt]
                have hsplit := List.dropLast_append_getLast hnames
                have hlast := hp _ (List.getLast_mem hnames)
                have hpop : List.take
                    (cleanBacktrack (render rooted (dots k ++ names)) (render rooted (dots k)).length
                      ((render rooted (dots k ++ names)).length - 1))
                    (render rooted (dots k ++ names)) =
                    render rooted (dots k ++ names.dropLast) := by
                  have e : render rooted (dots k ++ names) =
                      render rooted (dots k ++ names.dropLast) ++ sepOf (dots k ++ names.dropLast)
                        ++ names.getLast hnames := by
                    rw [← render_concat, List.append_assoc, hsplit]
                  rw [e, cleanBacktrack_pop _ _ _ _ (length_render_mono _ _ _) _ hlast.1 hlast.2.1]
                  · rw [List.append_assoc, List.take_left]
                  · unfold sepOf
                    by_cases hs : dots k ++ names.dropLast = []
                    · right
                      refine ⟨if_pos hs, ?_⟩
                      rw [hs]
                      have : dots k = [] := (List.append_eq_nil.mp hs).1
                      rw [this]
                    · left; exact if_neg hs
                rw [hpop]
                exact ih rest (by omega) k names.dropLast hk
                  (fun x hx => hp x (List.mem_of_mem_dropLast hx))
          · rw [cleanRun_elem _ _ _ _ _ c1 c2 c3,
              addSlash_render _ _ (stack_ne_nil k names hp), ← render_concat, List.append_assoc]
            apply ih _ (le_trans (List.dropWhile_sublist _).length_le h) k _ hk
            intro x hx
            rcases List.mem_append.mp hx with h | h
            · exact hp x h
            · rw [List.mem_singleton.mp h]
              exact properName_elem c rest c1 c2 c3

theorem intercalate_concat (st : List (List Char)) (x : List Char) :
    ['/'].intercalate (st ++ [x]) =
      if st = [] then x else ['/'].intercalate st ++ '/' :: x := by
  unfold List.intercalate
  rw [intersperse_concat]
  by_cases h : st = []
  · simp [h]
  · simp [h]

theorem cleanRun_intercalate_concat (rooted : Bool) (st : List (List Char)) (x out : List Char)
    (dotdot : Nat) :
    cleanRun rooted (['/'].intercalate (st ++ [x])) out dotdot =
      cleanRun rooted x (cleanRun rooted (['/'].intercalate st) out dotdot).1
        (cleanRun rooted (['/'].intercalate st) out dotdot).2 := by
  rw [intercalate_concat]
  by_cases h : st = []
  · subst h
    rfl
  · rw [if_neg h, cleanRun_append_slash rooted _ _ _ _ _ (Nat.le_refl _), cleanRun_slash]

theorem cleanRun_push_name (rooted : Bool) (k : Nat) (names : List (List Char)) (x : List Char)
    (dotdot : Nat) (hp : ∀ n ∈ names, ProperName n) (hx : ProperName x) :
    cleanRun rooted x (render rooted (dots k ++ names)) dotdot =
      (render rooted (dots k ++ (names ++ [x])), dotdot) := by
  rw [cleanRun_name _ _ _ _ hx, addSlash_render _ _ (stack_ne_nil k names hp), ← render_concat,
    List.append_assoc]

theorem cleanRun_push_dotdot (k : Nat) :
    cleanRun false ['.', '.'] (render false (dots k)) (render false (dots k)).length =
      (render false (dots (k + 1)), (render false (dots (k + 1))).length) := by
  rw [cleanRun_dotdot _ _ _ _ (Or.inl rfl), if_neg (Nat.lt_irrefl _),
    if_pos (by decide : (!false) = true), cleanRun_nil]
  have e0 : ∀ out : List Char,
      (if 0 < out.length then out ++ ['/'] else out) = addSlash false out := by
    intro out
    unfold addSlash
    by_cases h0 : out.length = 0
    · simp [h0]
    · have h1 : 0 < out.length := Nat.pos_of_ne_zero h0
      simp [h0, h1]
  have e1 : dots (k + 1) = dots k ++ [['.', '.']] := List.replicate_succ' _ _
  rw [e1, render_concat, ← addSlash_render false _ (dots_ne_nil k), e0]

theorem cleanRun_rerun_dots (rooted : Bool) (k : Nat) (hk : rooted = true → k = 0) :
    cleanRun rooted (['/'].intercalate (dots k)) (render rooted []) (render rooted []).length =
      (render rooted (dots k), (render rooted (dots k)).length) := by
  induction k with
  | zero => rfl
  | succ k ih =>
    cases rooted with
    | true => exact absurd (hk rfl) (Nat.succ_ne_zero k)
    | false =>
      have e1 : dots (k + 1) = dots k ++ [['.', '.']] := List.replicate_succ' _ _
      rw [e1, cleanRun_intercalate_concat, ih (by simp), ← e1]
      exact cleanRun_push_dotdot k

theorem cleanRun_rerun (rooted : Bool) (k : Nat) (names : List (List Char))
    (hk : rooted = true → k = 0) (hp : ∀ n ∈ names, ProperName n) :
    cleanRun rooted (['/'].intercalate (dots k ++ names)) (render rooted [])
        (render rooted []).length =
      (render rooted (dots k ++ names), (render rooted (dots k)).length) := by
  induction names using List.reverseRecOn with
  | nil =>
    rw [List.append_nil]
    exact cleanRun_rerun_dots rooted k hk
  | append_singleton names x ih =>
    have hp1 : ∀ n ∈ names, ProperName n := fun n hn => hp n (by simp [hn])
    have hx : ProperName x := hp x (by simp)
    rw [← List.append_assoc, cleanRun_intercalate_concat, List.append_assoc, ih hp1]
    exact cleanRun_push_name rooted k names x _ hp1 hx

theorem Clean_rooted (path : String) (t : List Char) (h : path.data = '/' :: t) :
    Clean path = cleanFinish (cleanRun true t ['/'] 1).1 := by
  have hne : path ≠ "" := by
    intro e
    rw [e] at h
    simp at h
  have hfuel := cleanLoop_fuel true (t.length + 1) t.length t ['/'] 1 (Nat.le_succ _)
    (Nat.le_refl _)
  unfold Clean cleanFinish cleanRun
  simp only [hne, if_false, h, List.head?_cons, if_true, List.tail_cons, List.length_cons, hfuel]

theorem Clean_unrooted (path : String) (c : Char) (t : List Char) (h : path.data = c :: t)
    (hc : c ≠ '/') :
    Clean path = cleanFinish (cleanRun false (c :: t) [] 0).1 := by
  have hne : path ≠ "" := by
    intro e
    rw [e] at h
    simp at h
  have hh : ¬ (some c = some '/') := by simpa using hc
  unfold Clean cleanFinish cleanRun
  simp only [hne, if_false, h, List.head?_cons, hh, List.length_cons]

theorem data_child (folder name : String) :
    (folder ++ pathSeparator ++ name).data = folder.data ++ '/' :: name.data := by
  simp [String.data_append, pathSeparator]

theorem render_concat_ne_nil (rooted : Bool) (st : List (List Char)) (x : List Char)
    (hx : x ≠ []) : ¬ (render rooted (st ++ [x])).length = 0 := by
  rw [render_concat]
  have := List.length_pos.mpr hx
  simp only [List.length_append]
  omega

theorem childPath_of_state (rooted : Bool) (rest out : List Char) (dotdot k : Nat)
    (names : List (List Char)) (x : List Char)
    (hp : ∀ n ∈ names, ProperName n) (hx : ProperName x)
    (hs : cleanRun rooted rest out dotdot =
      (render rooted (dots k ++ names), (render rooted (dots k)).length)) :
    cleanFinish (cleanRun rooted (rest ++ '/' :: x) out dotdot).1 =
      ⟨render rooted (dots k ++ (names ++ [x]))⟩ := by
  rw [cleanRun_append_slash rooted _ _ _ _ _ (Nat.le_refl _), hs, cleanRun_slash,
    cleanRun_push_name rooted k names x _ hp hx]
  unfold cleanFinish
  rw [← List.append_assoc, if_neg (render_concat_ne_nil _ _ _ hx.1)]

theorem childPath_eq_render (folder : String) :
    ∃ (rooted : Bool) (k : Nat) (names : List (List Char)), (rooted = true → k = 0) ∧
      (∀ n ∈ names, ProperName n) ∧
      ∀ x : String, ProperName x.data →
        childPath folder x = ⟨render rooted (dots k ++ (names ++ [x.data]))⟩ := by
  cases hd : folder.data with
  | nil =>
    refine ⟨true, 0, [], fun _ => rfl, by simp, ?_⟩
    intro x hx
    have e : (folder ++ pathSeparator ++ x).data = '/' :: x.data := by
      rw [data_child, hd]; rfl
    unfold childPath
    rw [Clean_rooted _ _ e]
    have := childPath_of_state true [] ['/'] 1 0 [] x.data (by simp) hx rfl
    rw [List.nil_append, cleanRun_slash] at this
    exact this
  | cons c t =>
    by_cases hc : c = '/'
    · subst hc
      obtain ⟨k, names, hk, hp, hs⟩ := cleanRun_stack true t.length t (Nat.le_refl _) 0 []
        (fun _ => rfl) (by simp)
      refine ⟨true, k, names, hk, hp, ?_⟩
      intro x hx
      have e : (folder ++ pathSeparator ++ x).data = '/' :: (t ++ '/' :: x.data) := by
        rw [data_child, hd]; rfl
      unfold childPath
      rw [Clean_rooted _ _ e]
      exact childPath_of_state true t ['/'] 1 k names x.data hp hx hs
    · obtain ⟨k, names, hk, hp, hs⟩ := cleanRun_stack false (c :: t).length (c :: t)
        (Nat.le_refl _) 0 [] (by simp) (by simp)
      refine ⟨false, k, names, hk, hp, ?_⟩
      intro x hx
      have e : (folder ++ pathSeparator ++ x).data = c :: (t ++ '/' :: x.data) := by
        rw [data_child, hd]; rfl
      unfold childPath
      rw [Clean_unrooted _ _ _ e hc]
      exact childPath_of_state false (c :: t) [] 0 k names x.data hp hx hs

theorem stack_no_slash (k : Nat) (names : List (List Char)) (hp : ∀ x ∈ names, ProperName x) :
    ∀ n ∈ dots k ++ names, '/' ∉ n := by
  intro n hn
  rcases List.mem_append.mp hn with h | h
  · rw [dots, List.mem_replicate] at h
    rw [h.2]
    decide
  · exact (hp n h).2.1

theorem intercalate_head (st : List (List Char)) (hne : st ≠ []) (h0 : ∀ n ∈ st, n ≠ [])
    (hs : ∀ n ∈ st, '/' ∉ n) :
    ∃ c t, ['/'].intercalate st = c :: t ∧ c ≠ '/' := by
  cases st with
  | nil => exact absurd rfl hne
  | cons a st =>
    cases a with
    | nil => exact absurd rfl (h0 [] (by simp))
    | cons c a =>
      have hc : c ≠ '/' := fun e => hs (c :: a) (by simp) (by simp [e])
      cases st with
      | nil => exact ⟨c, a, by simp [List.intercalate], hc⟩
      | cons b st =>
        exact ⟨c, _, by simp only [List.intercalate, List.intersperse_cons_cons,
          List.flatten_cons, List.cons_append]; rfl, hc⟩

theorem childPath_render (rooted : Bool) (k : Nat) (names : List (List Char)) (x : String)
    (hk : rooted = true → k = 0) (hp : ∀ n ∈ names, ProperName n) (hx : ProperName x.data)
    (hne : dots k ++ names ≠ []) :
    childPath ⟨render rooted (dots k ++ names)⟩ x =
      ⟨render rooted (dots k ++ (names ++ [x.data]))⟩ := by
  have hs := cleanRun_rerun rooted k names hk hp
  cases rooted with
  | true =>
    have e : ((⟨render true (dots k ++ names)⟩ : String) ++ pathSeparator ++ x).data =
        '/' :: (['/'].intercalate (dots k ++ names) ++ '/' :: x.data) := by
      rw [data_child]; rfl
    unfold childPath
    rw [Clean_rooted _ _ e]
    exact childPath_of_state true _ _ _ k names x.data hp hx hs
  | false =>
    obtain ⟨c, t, hct, hc⟩ := intercalate_head (dots k ++ names) hne (stack_ne_nil k names hp)
      (stack_no_slash k names hp)
    have e : ((⟨render false (dots k ++ names)⟩ : String) ++ pathSeparator ++ x).data =
        c :: (t ++ '/' :: x.data) := by
      rw [data_child]
      show ([] ++ ['/'].intercalate (dots k ++ names)) ++ '/' :: x.data = _
      rw [List.nil_append, hct]
      rfl
    unfold childPath
    rw [Clean_unrooted _ _ _ e hc, ← List.cons_append, ← hct]
    exact childPath_of_state false _ _ _ k names x.data hp hx hs

theorem pathOf_eq_render (root : String) :
    ∃ (rooted : Bool) (k : Nat) (names : List (List Char)), (rooted = true → k = 0) ∧
      (∀ n ∈ names, ProperName n) ∧
      ∀ chain : List String, chain ≠ [] → (∀ x ∈ chain, ProperName x.data) →
        pathOf root chain = ⟨render rooted (dots k ++ (names ++ chain.map String.data))⟩ := by
  obtain ⟨rooted, k, names, hk, hp, h1⟩ := childPath_eq_render root
  refine ⟨rooted, k, names, hk, hp, ?_⟩
  intro chain
  induction chain using List.reverseRecOn with
  | nil => intro h; exact absurd rfl h
  | append_singleton chain x ih =>
    intro _ hpc
    have hx : ProperName x.data := hpc x (by simp)
    have hpc1 : ∀ y ∈ chain, ProperName y.data := fun y hy => hpc y (by simp [hy])
    unfold pathOf
    rw [List.foldl_append, List.foldl_cons, List.foldl_nil]
    by_cases hch : chain = []
    · subst hch
      exact h1 x hx
    · have := ih hch hpc1
      unfold pathOf at this
      rw [this]
      have hp2 : ∀ n ∈ names ++ chain.map String.data, ProperName n := by
        intro n hn
        rcases List.mem_append.mp hn with h | h
        · exact hp n h
        · obtain ⟨y, hy, rfl⟩ := List.mem_map.mp h
          exact hpc1 y hy
      have hne : dots k ++ (names ++ chain.map String.data) ≠ [] := by
        simp [hch]
      rw [childPath_render rooted k _ x hk hp2 hx hne]
      simp

theorem render_injective (rooted : Bool) (l1 l2 : List (List Char)) (h1 : l1 ≠ [])
    (h2 : l2 ≠ []) (hs1 : ∀ n ∈ l1, '/' ∉ n) (hs2 : ∀ n ∈ l2, '/' ∉ n)
    (h : render rooted l1 = render rooted l2) : l1 = l2 := by
  unfold render at h
  have h3 := List.append_cancel_left h
  have e1 := List.splitOn_intercalate l1 '/' hs1 h1
  have e2 := List.splitOn_intercalate l2 '/' hs2 h2
  rw [← e1, ← e2, h3]

theorem pathOf_injective (root : String) (c1 c2 : List String) (h1 : c1 ≠ []) (h2 : c2 ≠ [])
    (hp1 : ∀ x ∈ c1, ProperName x.data) (hp2 : ∀ x ∈ c2, ProperName x.data)
    (h : pathOf root c1 = pathOf root c2) : c1 = c2 := by
  obtain ⟨rooted, k, names, _, hp, hr⟩ := pathOf_eq_render root
  rw [hr c1 h1 hp1, hr c2 h2 hp2] at h
  have h3 := congrArg String.data h
  simp only at h3
  have hns : ∀ (c : List String), (∀ x ∈ c, ProperName x.data) →
      ∀ n ∈ dots k ++ (names ++ c.map String.data), '/' ∉ n := by
    intro c hc
    apply stack_no_slash
    intro n hn
    rcases List.mem_append.mp hn with h | h
    · exact hp n h
    · obtain ⟨y, hy, rfl⟩ := List.mem_map.mp h
      exact hc y hy
  have h4 := render_injective rooted _ _ (by simp [h1]) (by simp [h2]) (hns c1 hp1) (hns c2 hp2) h3
  have h5 := List.append_cancel_left (List.append_cancel_left h4)
  have hinj : Function.Injective String.data := fun a b hab => String.ext hab
  exact List.map_injective_iff.mpr hinj h5

theorem ownFiles_eq_map_pathOf (folder : String) (entries : List FsNode) :
    ownFiles folder (entries.map FsNode.info) = (ownChains entries).map (pathOf folder) := by
  simp only [ownFiles, ownChains, List.map_map]
  rfl

mutual
theorem FsNode.filesBelow_eq_map_pathOf (folder : String) :
    ∀ node : FsNode, node.filesBelow folder = node.chainsBelow.map (pathOf folder)
  | .file _ => rfl
  | .unreadable _ => rfl
  | .dir name entries => by
    have h := filesBelowList_eq_map_pathOf_aux (childPath folder name) entries
    simp only [FsNode.filesBelow, FsNode.chainsBelow, List.map_map, List.map_append,
      ownFiles_eq_map_pathOf, h]
    rfl
theorem filesBelowList_eq_map_pathOf_aux (folder : String) :
    ∀ entries : List FsNode,
      filesBelowList folder entries = (chainsBelowList entries).map (pathOf folder)
  | [] => rfl
  | node :: rest => by
    simp only [filesBelowList, chainsBelowList, List.map_append,
      FsNode.filesBelow_eq_map_pathOf folder node, filesBelowList_eq_map_pathOf_aux folder rest]
end

theorem allFiles_eq_map_pathOf (folder : String) (entries : List FsNode) :
    allFiles folder entries =
      (ownChains entries ++ chainsBelowList entries).map (pathOf folder) := by
  rw [allFiles, List.map_append, ownFiles_eq_map_pathOf, filesBelowList_eq_map_pathOf_aux]

theorem FsNode.info_name (node : FsNode) : node.info.name = node.name := by
  cases node <;> rfl

theorem FsNode.proper_of_wellFormed (node : FsNode) (h : node.wellFormed = true) :
    ProperName node.name.data := by
  cases node <;> simp [FsNode.wellFormed] at h <;> simp [FsNode.name, h]

theorem wellFormed_of_mem (entries : List FsNode) (h : wellFormedList entries = true) :
    ∀ node ∈ entries, node.wellFormed = true := by
  induction entries with
  | nil => simp
  | cons node rest ih =>
    simp only [wellFormedList, Bool.and_eq_true] at h
    intro x hx
    rcases List.mem_cons.mp hx with e | e
    · rw [e]; exact h.1
    · exact ih h.2 x e

theorem mem_ownChains (entries : List FsNode) (chain : List String)
    (h : chain ∈ ownChains entries) :
    ∃ node ∈ entries, node.info.isDir = false ∧ chain = [node.name] := by
  simp only [ownChains, List.mem_map, List.mem_filter] at h
  obtain ⟨file, ⟨⟨node, hnode, rfl⟩, hdir⟩, rfl⟩ := h
  exact ⟨node, hnode, by simpa using hdir, by rw [FsNode.info_name]⟩

theorem ownChains_nodup (entries : List FsNode) (h : (entries.map FsNode.name).Nodup) :
    (ownChains entries).Nodup := by
  have h1 : ((entries.map FsNode.info).map FileInfo.name).Nodup := by
    rw [List.map_map]
    have : (FileInfo.name ∘ FsNode.info) = FsNode.name := funext FsNode.info_name
    rw [this]
    exact h
  have h2 : (((entries.map FsNode.info).filter fun file => !file.isDir).map
      FileInfo.name).Nodup :=
    h1.sublist ((List.filter_sublist _).map _)
  have h3 := h2.map (f := fun n : String => [n]) (fun a b hab => by simpa using hab)
  rw [List.map_map] at h3
  exact h3

theorem fileChains_spec (entries : List FsNode) (hwf : wellFormedList entries = true)
    (hnd : (entries.map FsNode.name).Nodup)
    (hbelow : (∀ chain ∈ chainsBelowList entries, ∃ node ∈ entries, ∃ rest,
        chain = node.name :: rest ∧ rest ≠ [] ∧ ∀ x ∈ chain, ProperName x.data) ∧
      (chainsBelowList entries).Nodup) :
    (∀ chain ∈ ownChains entries ++ chainsBelowList entries,
        chain ≠ [] ∧ ∀ x ∈ chain, ProperName x.data) ∧
      (ownChains entries ++ chainsBelowList entries).Nodup := by
  constructor
  · intro chain hchain
    rcases List.mem_append.mp hchain with h | h
    · obtain ⟨node, hnode, _, rfl⟩ := mem_ownChains entries chain h
      refine ⟨by simp, ?_⟩
      intro x hx
      rw [List.mem_singleton.mp hx]
      exact node.proper_of_wellFormed (wellFormed_of_mem entries hwf node hnode)
    · obtain ⟨node, _, rest, rfl, _, hp⟩ := hbelow.1 chain h
      exact ⟨by simp, hp⟩
  · refine List.nodup_append.mpr ⟨ownChains_nodup entries hnd, hbelow.2, ?_⟩
    intro chain h1 h2
    obtain ⟨node, _, _, e1⟩ := mem_ownChains entries chain h1
    obtain ⟨node2, _, rest, e2, hne, _⟩ := hbelow.1 chain h2
    rw [e1] at e2
    simp only [List.cons.injEq] at e2
    exact hne e2.2.symm

mutual
theorem FsNode.chainsBelow_spec :
    ∀ node : FsNode, node.wellFormed = true →
      (∀ chain ∈ node.chainsBelow, ∃ rest,
        chain = node.name :: rest ∧ rest ≠ [] ∧ ∀ x ∈ chain, ProperName x.data) ∧
      node.chainsBelow.Nodup
  | .file _, _ => by simp [FsNode.chainsBelow]
  | .unreadable _, _ => by simp [FsNode.chainsBelow]
  | .dir name entries, h => by
    simp only [FsNode.wellFormed, Bool.and_eq_true, decide_eq_true_eq] at h
    obtain ⟨⟨hname, hnd⟩, hwf⟩ := h
    have hspec := fileChains_spec entries hwf hnd (chainsBelowList_spec entries hwf hnd)
    constructor
    · intro chain hchain
      simp only [FsNode.chainsBelow, List.mem_map] at hchain
      obtain ⟨rest, hrest, rfl⟩ := hchain
      refine ⟨rest, rfl, (hspec.1 rest hrest).1, ?_⟩
      intro x hx
      rcases List.mem_cons.mp hx with e | e
      · rw [e]; exact hname
      · exact (hspec.1 rest hrest).2 x e
    · simp only [FsNode.chainsBelow]
      exact hspec.2.map (fun a b hab => by simpa using hab)
theorem chainsBelowList_spec :
    ∀ entries : List FsNode, wellFormedList entries = true →
      (entries.map FsNode.name).Nodup →
      (∀ chain ∈ chainsBelowList entries, ∃ node ∈ entries, ∃ rest,
        chain = node.name :: rest ∧ rest ≠ [] ∧ ∀ x ∈ chain, ProperName x.data) ∧
      (chainsBelowList entries).Nodup
  | [], _, _ => by simp [chainsBelowList]
  | node :: rest, h, hnd => by
    simp only [wellFormedList, Bool.and_eq_true] at h
    simp only [List.map_cons, List.nodup_cons] at hnd
    have h1 := FsNode.chainsBelow_spec node h.1
    have h2 := chainsBelowList_spec rest h.2 hnd.2
    constructor
    · intro chain hchain
      simp only [chainsBelowList] at hchain
      rcases List.mem_append.mp hchain with e | e
      · obtain ⟨r, hr⟩ := h1.1 chain e
        exact ⟨node, by simp, r, hr⟩
      · obtain ⟨node2, hn2, r, hr⟩ := h2.1 chain e
        exact ⟨node2, by simp [hn2], r, hr⟩
    · simp only [chainsBelowList]
      refine List.nodup_append.mpr ⟨h1.2, h2.2, ?_⟩
      intro chain e1 e2
      obtain ⟨r1, hr1, _⟩ := h1.1 chain e1
      obtain ⟨node2, hn2, r2, hr2, _⟩ := h2.1 chain e2
      rw [hr1] at hr2
      simp only [List.cons.injEq] at hr2
      exact hnd.1 (by rw [hr2.1]; exact List.mem_map_of_mem _ hn2)
end

theorem allFiles_nodup (root : String) (entries : List FsNode) (h : WellFormed entries) :
    (allFiles root entries).Nodup := by
  have hspec := fileChains_spec entries h.2 h.1 (chainsBelowList_spec entries h.2 h.1)
  rw [allFiles_eq_map_pathOf]
  apply List.Nodup.map_on _ hspec.2
  intro c1 hc1 c2 hc2 heq
  exact pathOf_injective root c1 c2 (hspec.1 c1 hc1).1 (hspec.1 c2 hc2).1 (hspec.1 c1 hc1).2
    (hspec.1 c2 hc2).2 heq

theorem ownFiles_not_dir (root : String) (entries : List FsNode) (h : WellFormed entries) :
    ∀ p ∈ ownFiles root (entries.map FsNode.info),
      p ∉ ownDirs root (entries.map FsNode.info) ∧ p ∉ filesBelowList root entries := by
  intro p hp
  constructor
  · intro hq
    simp only [ownFiles, ownDirs, List.mem_map, List.mem_filter] at hp hq
    obtain ⟨f, ⟨⟨n1, hn1, rfl⟩, hf⟩, rfl⟩ := hp
    obtain ⟨d, ⟨⟨n2, hn2, rfl⟩, hd⟩, hpq⟩ := hq
    have hp1 := n1.proper_of_wellFormed (wellFormed_of_mem entries h.2 n1 hn1)
    have hp2 := n2.proper_of_wellFormed (wellFormed_of_mem entries h.2 n2 hn2)
    rw [FsNode.info_name] at hpq
    rw [FsNode.info_name] at hpq
    have hinj := pathOf_injective root [n2.name] [n1.name] (by simp) (by simp)
      (by simpa using hp2) (by simpa using hp1) hpq
    simp only [List.cons.injEq, and_true] at hinj
    have := List.inj_on_of_nodup_map h.1 hn2 hn1 hinj
    subst this
    simp [hd] at hf
  · have hnd := allFiles_nodup root entries h
    rw [allFiles] at hnd
    exact fun hq => (List.nodup_append.mp hnd).2.2 hp hq

/-! ## The fatal error has one cause -/

theorem descendLoop_not_fatal (readDir : ReadDir) (n : Nat)
    (IH : ∀ folder entries, readDir folder = some (entries.map FsNode.info) →
      mountedList readDir folder entries = true → hasUnreadableList entries = false →
      ∀ w, traverseFolder readDir n folder true ≠ .fatal w)
    (folder : String) (entries : List FsNode) (k : Nat) (acc : List String)
    (hm : mountedList readDir folder entries = true)
    (hu : hasUnreadableList entries = false) (w : String) :
    descendLoop (fun dir => traverseFolder readDir n dir true) acc
      (ownDirs folder (entries.map FsNode.info) ++ List.replicate k "") ≠ .fatal w := by
  induction entries generalizing acc with
  | nil =>
    simp [ownDirs, descendLoop_empty_slots]
  | cons node rest ih =>
    simp only [mountedList, Bool.and_eq_true] at hm
    simp only [hasUnreadableList, Bool.or_eq_false_iff] at hu
    cases node with
    | file name =>
      have e : ownDirs folder ((FsNode.file name :: rest).map FsNode.info) =
          ownDirs folder (rest.map FsNode.info) := by
        simp [ownDirs, FsNode.info, List.filter_cons]
      rw [e]
      exact ih acc hm.2 hu.2
    | unreadable name =>
      simp [FsNode.hasUnreadable] at hu
    | dir name sub =>
      have e : ownDirs folder ((FsNode.dir name sub :: rest).map FsNode.info) =
          childPath folder name :: ownDirs folder (rest.map FsNode.info) := by
        simp [ownDirs, FsNode.info, List.filter_cons]
      rw [e]
      simp only [FsNode.mounted, Bool.and_eq_true, decide_eq_true_eq] at hm
      simp only [FsNode.hasUnreadable] at hu
      have hne : childPath folder name ≠ "" := Clean_ne_empty _
      have hsub := IH (childPath folder name) sub hm.1.1 hm.1.2 hu.1
      simp only [List.cons_append, descendLoop, hne, ne_eq, not_false_eq_true, if_true]
      cases hres : traverseFolder readDir n (childPath folder name) true with
      | ok found =>
        simp only [Outcome.bind]
        exact ih (acc ++ found) hm.2 hu.2
      | fatal w2 => exact absurd hres (hsub w2)
      | indexOutOfRange =>
        simp only [Outcome.bind]
        intro h; cases h
      | outOfFuel =>
        simp only [Outcome.bind]
        intro h; cases h

theorem traverseFolder_not_fatal (readDir : ReadDir) (fuel : Nat) :
    ∀ folder entries, readDir folder = some (entries.map FsNode.info) →
      mountedList readDir folder entries = true → hasUnreadableList entries = false →
      ∀ w, traverseFolder readDir fuel folder true ≠ .fatal w := by
  induction fuel with
  | zero =>
    intro folder entries _ _ _ w h
    simp only [traverseFolder] at h
    cases h
  | succ n IH =>
    intro folder entries hr hm hu w
    cases hb : listingWithinBounds (entries.map FsNode.info) with
    | false =>
      rw [traverseFolder_overflow readDir n folder true _ hr hb]
      intro h; cases h
    | true =>
      have hloop := descendLoop_not_fatal readDir n IH folder entries
        (directoriesLen - (ownDirs folder (entries.map FsNode.info)).length)
        (ownFiles folder (entries.map FsNode.info)) hm hu w
      have hstep : traverseFolder readDir (n + 1) folder true =
          descendLoop (fun dir => traverseFolder readDir n dir true)
            (ownFiles folder (entries.map FsNode.info))
            (ownDirs folder (entries.map FsNode.info) ++ List.replicate
              (directoriesLen - (ownDirs folder (entries.map FsNode.info)).length) "") := by
        simp only [traverseFolder, hr, partitionLoop_init_ok folder _ hb, Outcome.bind,
          List.take_left]
        by_cases h0 : (ownDirs folder (entries.map FsNode.info)).length = 0
        · have h1 : ownDirs folder (entries.map FsNode.info) = [] := List.length_eq_zero.mp h0
          simp [h1, descendLoop_empty_slots]
        · simp [h0]
      rw [hstep]
      exact hloop

/-- A traversal that ends in the fatal error has met a directory that cannot be
read, whatever the sizes of the directories and whatever the recursion
budget. -/
theorem traverseFolder_fatal_only_if_unreadable (readDir : ReadDir) (root : String)
    (entries : List FsNode) (fuel : Nat) (w : String) (hm : Mounted readDir root entries)
    (hfatal : traverseFolder readDir fuel root true = .fatal w) :
    hasUnreadableList entries = true := by
  cases hu : hasUnreadableList entries with
  | true => rfl
  | false => exact absurd hfatal (traverseFolder_not_fatal readDir fuel root entries hm.1 hm.2 hu w)

/-! ## The traversal: claims C1, C2, C6, C8 -/

/-- C2: for a readable directory `root` whose listing `files` honours the two
array lengths, `traverseFolder root false` returns exactly the list of
`path.Clean(root + "/" + name)` for the entries with `IsDir` false, in listing
order and with the same count; every element of it stems from a non-directory
entry of `root` itself; it is empty when the listing is empty or holds only
subdirectories; and when the listing is that of a well-formed tree, no element
occurs twice, none is the path of a subdirectory and none is the path of a file
below a subdirectory. -/
theorem traverseFolder_flat_exact (readDir : ReadDir) (root : String) (files : List FileInfo)
    (fuel : Nat) (hr : readDir root = some files) (hb : listingWithinBounds files = true)
    (hfuel : 0 < fuel) :
    traverseFolder readDir fuel root false =
      .ok ((files.filter fun file => !file.isDir).map fun file =>
        Clean (root ++ "/" ++ file.name)) ∧
    ((files.filter fun file => !file.isDir).map fun file =>
        Clean (root ++ "/" ++ file.name)).length =
      (files.filter fun file => !file.isDir).length ∧
    (∀ p ∈ (files.filter fun file => !file.isDir).map fun file =>
        Clean (root ++ "/" ++ file.name),
      ∃ file ∈ files, file.isDir = false ∧ p = Clean (root ++ "/" ++ file.name)) ∧
    ((∀ file ∈ files, file.isDir = true) → traverseFolder readDir fuel root false = .ok []) ∧
    (∀ entries : List FsNode, files = entries.map FsNode.info → WellFormed entries →
      ((files.filter fun file => !file.isDir).map fun file =>
        Clean (root ++ "/" ++ file.name)).Nodup ∧
      ∀ p ∈ (files.filter fun file => !file.isDir).map fun file =>
          Clean (root ++ "/" ++ file.name),
        p ∉ ((files.filter fun file => file.isDir).map fun file =>
          Clean (root ++ "/" ++ file.name)) ∧
        p ∉ filesBelowList root entries) := by
  obtain ⟨n, rfl⟩ : ∃ n, fuel = n + 1 := ⟨fuel - 1, by omega⟩
  have h := traverseFolder_flat readDir n root files hr hb
  refine ⟨h, by simp, ?_, ?_, ?_⟩
  · intro p hp
    obtain ⟨file, hfile, rfl⟩ := List.mem_map.mp hp
    have := List.mem_filter.mp hfile
    exact ⟨file, this.1, by simpa using this.2, rfl⟩
  · intro hall
    rw [h]
    have : (files.filter fun file => !file.isDir) = [] := by
      apply List.filter_eq_nil_iff.mpr
      intro file hfile
      simp [hall file hfile]
    simp [ownFiles, this]
  · intro entries hfiles hwf
    subst hfiles
    have hnd := allFiles_nodup root entries hwf
    rw [allFiles] at hnd
    exact ⟨(List.nodup_append.mp hnd).1, ownFiles_not_dir root entries hwf⟩

/-- C2 in the scenario of the specification, recursion off: the result is
`a.txt`, `b.log`; neither `sub` nor `sub/c.txt` occurs in it. -/
theorem traverseFolder_flat_exact_witness :
    traverseFolder sampleFs 1 "./" false = .ok ["a.txt", "b.log"] ∧
      "sub" ∉ ["a.txt", "b.log"] ∧ "sub/c.txt" ∉ ["a.txt", "b.log"] ∧
      (∀ p ∈ (((sampleDir.map FsNode.info).filter fun file => !file.isDir).map fun file =>
          Clean ("./" ++ "/" ++ file.name)),
        p ∉ (((sampleDir.map FsNode.info).filter fun file => file.isDir).map fun file =>
          Clean ("./" ++ "/" ++ file.name)) ∧
        p ∉ filesBelowList "./" sampleDir) :=
  ⟨(traverseFolder_flat_exact sampleFs "./" (sampleDir.map FsNode.info) 1 (by decide)
      (by decide) (by decide)).1.trans (congrArg Outcome.ok (by decide)),
    by decide, by decide,
    ((traverseFolder_flat_exact sampleFs "./" (sampleDir.map FsNode.info) 1 (by decide)
      (by decide) (by decide)).2.2.2.2 sampleDir rfl (by decide)).2⟩

/-- C1: let the file system show, at `root`, a finite tree `entries` in which
every directory can be read and honours the two array lengths.  Then, with
enough recursion budget, `traverseFolder root true` returns the list
`allFiles root entries`: the root's own files `path.Clean(root + "/" + name)`
in listing order, followed by, for each entry in listing order, the files below
it; the part contributed by a subdirectory is the result of traversing that
subdirectory; the length of the list is the number of non-directory entries of
the whole tree; and when the names of each directory are pairwise distinct
names a directory can hold, no path occurs twice in the list. -/
theorem traverseFolder_recursive_exact (readDir : ReadDir) (root : String)
    (entries : List FsNode) (fuel : Nat) (hm : Mounted readDir root entries)
    (hread : hasUnreadableList entries = false) (hb : WithinBounds entries)
    (hfuel : depthList entries < fuel) :
    traverseFolder readDir fuel root true = .ok (allFiles root entries) ∧
    allFiles root entries =
      ((entries.map FsNode.info).filter fun file => !file.isDir).map
          (fun file => Clean (root ++ "/" ++ file.name)) ++
        entries.flatMap (fun node => node.filesBelow root) ∧
    (∀ name sub, FsNode.dir name sub ∈ entries →
      (FsNode.dir name sub).filesBelow root = allFiles (Clean (root ++ "/" ++ name)) sub ∧
      traverseFolder readDir fuel (Clean (root ++ "/" ++ name)) true =
        .ok (allFiles (Clean (root ++ "/" ++ name)) sub)) ∧
    (allFiles root entries).length = countFilesList entries ∧
    (WellFormed entries → (allFiles root entries).Nodup) := by
  refine ⟨(traverseFolder_tree readDir fuel root entries hm.1 hm.2 hb hfuel).1 hread, ?_, ?_,
    length_allFiles root entries, allFiles_nodup root entries⟩
  · rw [allFiles, filesBelowList_eq_flatMap]
    rfl
  · intro name sub hmem
    obtain ⟨h1, h2, h3, h4⟩ := subtree_of_mem readDir root entries name sub hmem hm.2 hb.2 hread
    refine ⟨by simp only [FsNode.filesBelow, allFiles, childPath, pathSeparator], ?_⟩
    exact (traverseFolder_tree readDir fuel _ sub h1.1 h1.2 h2 (by omega)).1 h3

/-- C1 in the scenario of the specification, recursion on: the three files of
the tree, each once. -/
theorem traverseFolder_recursive_exact_witness :
    traverseFolder sampleFs 2 "./" true = .ok ["a.txt", "b.log", "sub/c.txt"] ∧
      countFilesList sampleDir = 3 ∧ (allFiles "./" sampleDir).Nodup :=
  ⟨(traverseFolder_recursive_exact sampleFs "./" sampleDir 2 (by decide) (by decide)
      (by decide) (by decide)).1.trans (congrArg Outcome.ok (by decide)),
    by decide,
    (traverseFolder_recursive_exact sampleFs "./" sampleDir 2 (by decide) (by decide)
      (by decide) (by decide)).2.2.2.2 (by decide)⟩

/-- C8, evaluated at the directory `big` with 10001 non-directory entries
`f00000` ... `f10000` of pairwise distinct names: `traverseFolder` does not
complete and drops nothing silently.  The store `realFiles[fileIdx] = ...` of
the entry number 10001 has no guard, is out of range and ends the run in a
run-time panic, with recursion off and with recursion on, although the comment
of the function promises a slice with all of the file names of the folder. -/
theorem traverseFolder_crowded_panics :
    (crowdedDir.map fun node => node.info.name).Nodup ∧
    ((crowdedDir.map FsNode.info).filter fun file => !file.isDir).length = 10001 ∧
    traverseFolder crowdedFs 1 "big" false = .indexOutOfRange ∧
    traverseFolder crowdedFs 1 "big" true = .indexOutOfRange :=
  ⟨manyFiles_names_nodup 10001 (by decide), manyFiles_filter_files 10001,
    traverseFolder_overflow crowdedFs 0 "big" false _ rfl crowdedDir_beyond_bounds,
    traverseFolder_overflow crowdedFs 0 "big" true _ rfl crowdedDir_beyond_bounds⟩

/-- The unguarded stores into the two arrays: for a readable directory whose
listing holds more than 10000 non-directory entries or more than 5000
subdirectories, the run of `traverseFolder` ends in the run-time panic of a
store out of range, whatever the recursion flag. -/
theorem traverseFolder_beyond_bounds (readDir : ReadDir) (folder : String)
    (files : List FileInfo) (fuel : Nat) (runRecursive : Bool)
    (hr : readDir folder = some files)
    (hover : realFilesLen < (files.filter fun file => !file.isDir).length ∨
      directoriesLen < (files.filter fun file => file.isDir).length)
    (hfuel : 0 < fuel) :
    traverseFolder readDir fuel folder runRecursive = .indexOutOfRange := by
  obtain ⟨n, rfl⟩ : ∃ n, fuel = n + 1 := ⟨fuel - 1, by omega⟩
  apply traverseFolder_overflow readDir n folder runRecursive files hr
  simp only [listingWithinBounds, Bool.and_eq_false_iff, decide_eq_false_iff_not]
  omega

/-- The panic of `traverseFolder_beyond_bounds` at a directory of 10001 files and
one subdirectory. -/
theorem traverseFolder_beyond_bounds_witness :
    traverseFolder crowdedLockedFs 3 "big" true = .indexOutOfRange :=
  traverseFolder_beyond_bounds crowdedLockedFs "big" (crowdedLockedDir.map FsNode.info) 3 true
    rfl
    (Or.inl (by
      simp only [crowdedLockedDir, List.map_append, List.filter_append, List.length_append,
        manyFiles_filter_files, realFilesLen]
      omega))
    (by decide)

/-- C6, evaluated at two directories beyond the array lengths.  The directory
`big` of `crowdedLockedFs` holds 10001 files and a subdirectory that cannot be
read, yet `traverseFolder "big" true` does not end in the fatal error of the
read: the unguarded store into `realFiles` panics before any subdirectory is
entered.  And in `crowdedFs`, where every directory can be read, the run
returns no list either.  Both runs break the equivalence of the claim through
the same missing guard. -/
theorem traverseFolder_fatal_iff_fails :
    Mounted crowdedLockedFs "big" crowdedLockedDir ∧
    hasUnreadableList crowdedLockedDir = true ∧
    traverseFolder crowdedLockedFs 2 "big" true = .indexOutOfRange ∧
    (¬ ∃ w, traverseFolder crowdedLockedFs 2 "big" true = .fatal w) ∧
    Mounted crowdedFs "big" crowdedDir ∧
    hasUnreadableList crowdedDir = false ∧
    (¬ ∃ found, traverseFolder crowdedFs 2 "big" true = .ok found) := by
  have h1 : traverseFolder crowdedLockedFs 2 "big" true = .indexOutOfRange :=
    traverseFolder_overflow crowdedLockedFs 1 "big" true _ rfl crowdedLockedDir_beyond_bounds
  have h2 : traverseFolder crowdedFs 2 "big" true = .indexOutOfRange :=
    traverseFolder_overflow crowdedFs 1 "big" true _ rfl crowdedDir_beyond_bounds
  refine ⟨⟨rfl, ?_⟩, ?_, h1, ?_, ⟨rfl, ?_⟩, ?_, ?_⟩
  · rw [crowdedLockedDir, mountedList_manyFiles]
    decide
  · rw [crowdedLockedDir, hasUnreadableList_manyFiles]
    decide
  · rw [h1]
    rintro ⟨w, hw⟩
    cases hw
  · have := mountedList_manyFiles crowdedFs "big" 10001 []
    rw [List.append_nil] at this
    rw [crowdedDir, this]
    rfl
  · have := hasUnreadableList_manyFiles 10001 []
    rw [List.append_nil] at this
    rw [crowdedDir, this]
    rfl
  · rw [h2]
    rintro ⟨w, hw⟩
    cases hw

/-- The fatal error away from the missing guard: `traverseFolder root false`
ends in the fatal error exactly when `root` cannot be read.  With recursion
on, an unreadable `root` is fatal; and when `root` shows a finite tree every
readable directory of which honours the two array lengths, `traverseFolder
root true` ends in the fatal error, and returns no list, exactly when some
directory of the tree cannot be read.  When the traversal is fatal, `main`
issues no file-system call on the output side: `writeList` is not reached. -/
theorem traverseFolder_fatal_iff (readDir : ReadDir) (root : String) (fuel : Nat)
    (hfuel : 0 < fuel) :
    ((∃ w, traverseFolder readDir fuel root false = .fatal w) ↔ readDir root = none) ∧
    (readDir root = none → traverseFolder readDir fuel root true = .fatal root) ∧
    (∀ entries, Mounted readDir root entries → WithinBounds entries →
      depthList entries < fuel →
      ((∃ w, traverseFolder readDir fuel root true = .fatal w) ↔
        hasUnreadableList entries = true)) ∧
    (∀ (env : OutputEnv) (recursive : Bool) (out ext w : String),
      traverseFolder readDir fuel root recursive = .fatal w →
      main readDir env fuel { dir := root, recursive := recursive, out := out, ext := ext } =
        { calls := [], ending := .fatal w }) := by
  obtain ⟨n, rfl⟩ : ∃ n, fuel = n + 1 := ⟨fuel - 1, by omega⟩
  refine ⟨⟨?_, ?_⟩, ?_, ?_, ?_⟩
  · rintro ⟨w, hw⟩
    cases hr : readDir root with
    | none => rfl
    | some files =>
      cases hb : listingWithinBounds files with
      | true => rw [traverseFolder_flat readDir n root files hr hb] at hw; cases hw
      | false => rw [traverseFolder_overflow readDir n root false files hr hb] at hw; cases hw
  · intro hr
    exact ⟨root, traverseFolder_unreadable readDir n root false hr⟩
  · intro hr
    exact traverseFolder_unreadable readDir n root true hr
  · intro entries hm hb hd
    have h := traverseFolder_tree readDir (n + 1) root entries hm.1 hm.2 hb hd
    constructor
    · rintro ⟨w, hw⟩
      cases hu : hasUnreadableList entries with
      | true => rfl
      | false => rw [h.1 hu] at hw; cases hw
    · exact h.2
  · intro env recursive out ext w hw
    simp only [main, hw]

/-- The equivalence of `traverseFolder_fatal_iff` at a small tree with a
subdirectory that cannot be read. -/
theorem traverseFolder_fatal_iff_witness :
    (∃ w, traverseFolder lockedFs 2 "./" true = .fatal w) ↔ hasUnreadableList lockedDir = true :=
  (traverseFolder_fatal_iff lockedFs "./" 2 (by decide)).2.2.1 lockedDir (by decide)
    (by decide) (by decide)

end Makefilelist
